import Mathlib

/-!
# scurvy: the non-cruise, jerk-only case solver `ncv_nca`

A shallow embedding of `src/include/ncv_nca.h` and of the checks that
`src/stress_test.cpp` runs on a solved plan.

Numbers.  A C++ `double` is modelled as `Dbl K`: either a finite value of an
ordered field `K`, computed exactly, or not-a-number.  Arithmetic propagates
not-a-number, a division by zero yields not-a-number (infinities are not
distinguished from it), and every comparison with a not-a-number operand is
false.  The fields of a constraint set are finite values of `K`.  Rounding is
not modelled.

Code outside the two source files.  `std::sqrt`, `solve_cubic`, the predicate
`afp` and the tolerance constants are parameters, collected in `Lib`.
`is_close`, `NAN_CD` and the evaluator of a plan (`distance`, `vp`, `vf`,
`time`, `cv_case`) are modelled from the specification.

What a theorem assumes of a parameter (a square root that squares to its
argument, a `solve_cubic` that returns the roots of its cubic) is a hypothesis
of that theorem.  The definitions are generic in the field `K`; concrete runs
are over the rationals, and over the reals where `sqrt 3` or the existence of a
root is needed.
-/

namespace scurvy

/-- A double of the model: not-a-number, or a finite exact value. -/
inductive Dbl (K : Type) where
  | nan : Dbl K
  | fin : K → Dbl K
deriving DecidableEq

namespace Dbl

variable {K : Type} [LinearOrderedField K]

/-- Sum of two doubles. -/
def add : Dbl K → Dbl K → Dbl K
  | fin a, fin b => fin (a + b)
  | _, _ => nan

/-- Difference of two doubles. -/
def sub : Dbl K → Dbl K → Dbl K
  | fin a, fin b => fin (a - b)
  | _, _ => nan

/-- Product of two doubles. -/
def mul : Dbl K → Dbl K → Dbl K
  | fin a, fin b => fin (a * b)
  | _, _ => nan

/-- Quotient of two doubles; a zero divisor gives a non-finite result. -/
def div : Dbl K → Dbl K → Dbl K
  | fin a, fin b => if b = 0 then nan else fin (a / b)
  | _, _ => nan

/-- Unary minus. -/
def neg : Dbl K → Dbl K
  | fin a => fin (-a)
  | nan => nan

instance : Add (Dbl K) := ⟨add⟩

instance : Sub (Dbl K) := ⟨sub⟩

instance : Mul (Dbl K) := ⟨mul⟩

instance : Div (Dbl K) := ⟨div⟩

instance : Neg (Dbl K) := ⟨neg⟩

/-- The comparison `a < b` of two doubles: false on not-a-number. -/
def lt : Dbl K → Dbl K → Bool
  | fin a, fin b => decide (a < b)
  | _, _ => false

/-- The comparison `a > b` of two doubles: false on not-a-number. -/
def gt (a b : Dbl K) : Bool := lt b a

/-- The comparison `a == b` of two doubles: false on not-a-number. -/
def eq : Dbl K → Dbl K → Bool
  | fin a, fin b => decide (a = b)
  | _, _ => false

/-- The call `std::pow(x, 3)`, exactly. -/
def pow3 (x : Dbl K) : Dbl K := x * x * x

end Dbl

/-- A `std::complex<double>`. -/
structure complex (K : Type) where
  re : Dbl K
  im : Dbl K
deriving DecidableEq

namespace complex

variable {K : Type} [LinearOrderedField K]

/-- The sum `double + complex`: the double is added to the real part. -/
def radd (x : Dbl K) (z : complex K) : complex K := ⟨x + z.re, z.im⟩

/-- The sum `complex + double`. -/
def addr (z : complex K) (x : Dbl K) : complex K := ⟨z.re + x, z.im⟩

/-- The difference `complex - double`. -/
def subr (z : complex K) (x : Dbl K) : complex K := ⟨z.re - x, z.im⟩

/-- The sum `complex + complex`. -/
def add (z w : complex K) : complex K := ⟨z.re + w.re, z.im + w.im⟩

/-- The product `double * complex`: both parts are scaled. -/
def rmul (x : Dbl K) (z : complex K) : complex K := ⟨x * z.re, x * z.im⟩

/-- The quotient `complex / double`: both parts are divided. -/
def divr (z : complex K) (x : Dbl K) : complex K := ⟨z.re / x, z.im / x⟩

/-- The quotient `complex / complex`. -/
def div (z w : complex K) : complex K :=
  ⟨(z.re * w.re + z.im * w.im) / (w.re * w.re + w.im * w.im),
   (z.im * w.re - z.re * w.im) / (w.re * w.re + w.im * w.im)⟩

/-- The quotient `double / complex`: the double is converted first. -/
def rdiv (x : Dbl K) (w : complex K) : complex K := div ⟨x, Dbl.fin 0⟩ w

/-- The comparison `complex == double`. -/
def eqr (z : complex K) (x : Dbl K) : Bool := Dbl.eq z.re x && Dbl.eq z.im (Dbl.fin 0)

end complex

/-- The constraint set `problem_t`, fields in the order of its structured binding. -/
structure problem_t (K : Type) where
  V : K
  A : K
  D : K
  J : K
  L : K
  v0 : K
  vf : K
deriving DecidableEq

/-- The seven phase durations `periods_t`. -/
structure periods_t (K : Type) where
  T1 : Dbl K
  T2 : Dbl K
  T3 : Dbl K
  T4 : Dbl K
  T5 : Dbl K
  T6 : Dbl K
  T7 : Dbl K
deriving DecidableEq

/-- The tags of `solution_type_t` that the two source files name. -/
inductive solution_type_t where
  | NCV_CA : solution_type_t
  | NCV_NCA : solution_type_t
deriving DecidableEq

/-- A solved plan `solution_t`: constraints, durations, tag. -/
structure solution_t (K : Type) where
  prob : problem_t K
  periods : periods_t K
  type : solution_type_t
deriving DecidableEq

/-- The three roots `std::array<std::complex<double>, 3>`, in order. -/
abbrev roots_t (K : Type) : Type := complex K × complex K × complex K

/-- What `ncv_nca.h` uses and the source files do not define: the square roots
of the standard library, `solve_cubic`, `problem_t::afp` and the tolerance
constants of `maths.h`. -/
structure Lib (K : Type) where
  sqrt3 : Dbl K
  csqrt : complex K → complex K
  solve_cubic : Dbl K → Dbl K → Dbl K → complex K → roots_t K
  afp : problem_t K → Bool
  RELTOL : K
  ABSTOL : K
  RELTOL_DIST : K
  ABSTOL_DIST : K

section code

variable {K : Type} [LinearOrderedField K]

/-- Modelled from the spec: `is_close` of `maths.h` is not among the source
files.  True iff `|a - b| ≤ max(absTol, relTol * max(|a|, |b|))`; with a
not-a-number argument the inequality is false. -/
def is_close (a b : Dbl K) (relTol absTol : K) : Bool :=
  match a, b with
  | Dbl.fin x, Dbl.fin y => decide (|x - y| ≤ max absTol (relTol * max |x| |y|))
  | _, _ => false

/-- Modelled from the spec: the constant `NAN_CD` of `maths.h` is not among the
source files.  The not-a-number complex value of the sentinel triple. -/
def NAN_CD : complex K := ⟨Dbl.nan, Dbl.nan⟩

/-- The denominator `z` of `ncv_nca_x_roots`. -/
def ncv_nca_z (lib : Lib K) (prob : problem_t K) : complex K :=
  let J : Dbl K := Dbl.fin prob.J
  let L : Dbl K := Dbl.fin prob.L
  let v_0 : Dbl K := Dbl.fin prob.v0
  let ra := Dbl.fin 27 * L * L + Dbl.fin 32 * Dbl.pow3 v_0 / J
  let sqrt3 := lib.sqrt3
  complex.rmul (Dbl.pow3 J)
    (complex.addr
      (complex.divr (complex.rmul sqrt3 (lib.csqrt (complex.radd ra ⟨Dbl.fin 0, Dbl.fin 0⟩))) J)
      (Dbl.fin 9 * L / J))

/-- The function `ncv_nca_x_roots`. -/
def ncv_nca_x_roots (lib : Lib K) (prob : problem_t K) : roots_t K :=
  let J : Dbl K := Dbl.fin prob.J
  let L : Dbl K := Dbl.fin prob.L
  let v_0 : Dbl K := Dbl.fin prob.v0
  let a : Dbl K := Dbl.fin 1
  let b : Dbl K := Dbl.fin 0
  let c := Dbl.fin 8 * v_0 / J
  let ra := Dbl.fin 27 * L * L + Dbl.fin 32 * Dbl.pow3 v_0 / J
  let sqrt3 := lib.sqrt3
  let z := ncv_nca_z lib prob
  if complex.eqr z (Dbl.fin 0) then
    (NAN_CD, NAN_CD, NAN_CD)
  else
    let d :=
      complex.add
        (complex.subr
          (complex.divr
            (complex.rmul (Dbl.fin (-4) / Dbl.fin 9 * sqrt3)
              (lib.csqrt (complex.radd ra ⟨Dbl.fin 0, Dbl.fin 0⟩)))
            J)
          (Dbl.fin 4 * L / J))
        (complex.rdiv (Dbl.fin 128 / Dbl.fin 3 * Dbl.pow3 v_0) z)
    lib.solve_cubic a b c d

/-- The body of the loop of `ncv_nca` on one root `xc`: `none` is `continue`,
`some s` is `return s`. -/
def ncv_nca_candidate (lib : Lib K) (prob : problem_t K) (xc : complex K) :
    Option (solution_t K) :=
  let A : Dbl K := Dbl.fin prob.A
  let J : Dbl K := Dbl.fin prob.J
  let L : Dbl K := Dbl.fin prob.L
  let v_0 : Dbl K := Dbl.fin prob.v0
  let v_f : Dbl K := Dbl.fin prob.vf
  let x := xc.re
  let vp := v_0 + Dbl.fin (1 / 4) * J * (x * x)
  if (Dbl.lt vp (Dbl.fin 0) && lib.afp prob) || (Dbl.lt (-vp) (Dbl.fin 0) && !lib.afp prob) then
    none
  else if (Dbl.gt vp v_f && lib.afp prob) || (Dbl.lt (-vp) (-v_f) && !lib.afp prob) then
    none
  else if Dbl.gt (J * Dbl.fin (1 / 2) * x) A then
    none
  else
    let T1 := Dbl.fin (1 / 2) * x
    let T2 : Dbl K := Dbl.fin 0
    let T3 := T1
    let l := (v_0 + vp) / Dbl.fin 2 * x
    if !is_close l L lib.RELTOL lib.ABSTOL then
      none
    else
      some ⟨prob, ⟨T1, T2, T3, Dbl.fin 0, Dbl.fin 0, Dbl.fin 0, Dbl.fin 0⟩,
        solution_type_t.NCV_NCA⟩

/-- The copy of the constraints that `ncv_nca` solves: `prob.J *= 1.0 - 1e-2`. -/
def perturb (_prob : problem_t K) : problem_t K :=
  { _prob with J := _prob.J * (1 - 1 / 100) }

/-- The function `ncv_nca`: the loop over the three roots, in order. -/
def ncv_nca (lib : Lib K) (_prob : problem_t K) : Option (solution_t K) :=
  let prob := perturb _prob
  let x_roots := ncv_nca_x_roots lib prob
  match ncv_nca_candidate lib prob x_roots.1 with
  | some s => some s
  | none =>
    match ncv_nca_candidate lib prob x_roots.2.1 with
    | some s => some s
    | none => ncv_nca_candidate lib prob x_roots.2.2

/-- The state of the axis along the profile: acceleration, velocity, position. -/
structure kin_t (K : Type) where
  a : Dbl K
  v : Dbl K
  p : Dbl K

/-- Modelled from the spec: the evaluator of `solve.h` is not among the source
files.  One phase of constant jerk `j` and duration `T`, integrated in closed
form: acceleration linear, velocity quadratic, position cubic in `T`. -/
def phase (j T : Dbl K) (s : kin_t K) : kin_t K :=
  { a := s.a + j * T
    v := s.v + s.a * T + j * T * T / Dbl.fin 2
    p := s.p + s.v * T + s.a * T * T / Dbl.fin 2 + j * T * T * T / Dbl.fin 6 }

/-- Modelled from the spec: the state at the end of the acceleration ramp, after
jerk-up accel `T1`, constant accel `T2` and jerk-down accel `T3`, from rest
acceleration and velocity `v0`. -/
def accel_ramp (prob : problem_t K) (T : periods_t K) : kin_t K :=
  let J : Dbl K := Dbl.fin prob.J
  phase (-J) T.T3 (phase (Dbl.fin 0) T.T2 (phase J T.T1 ⟨Dbl.fin 0, Dbl.fin prob.v0, Dbl.fin 0⟩))

/-- Modelled from the spec: the state at the end of the whole profile, after
cruise `T4`, jerk-up decel `T5`, constant decel `T6` and jerk-down decel `T7`. -/
def profile (prob : problem_t K) (T : periods_t K) : kin_t K :=
  let J : Dbl K := Dbl.fin prob.J
  phase J T.T7 (phase (Dbl.fin 0) T.T6 (phase (-J) T.T5
    (phase (Dbl.fin 0) T.T4 (accel_ramp prob T))))

/-- Modelled from the spec: `time()`, the sum of the seven phase durations. -/
def periods_t.time (T : periods_t K) : Dbl K :=
  T.T1 + T.T2 + T.T3 + T.T4 + T.T5 + T.T6 + T.T7

/-- Modelled from the spec: `distance()`, the integral of velocity over the
whole profile. -/
def solution_t.distance (s : solution_t K) : Dbl K := (profile s.prob s.periods).p

/-- Modelled from the spec: `vp()`, the velocity at the end of the acceleration
ramp. -/
def solution_t.vp (s : solution_t K) : Dbl K := (accel_ramp s.prob s.periods).v

/-- Modelled from the spec: `vf()`, the signed actual end velocity, in the frame
of the plan's own constraints. -/
def solution_t.vf (s : solution_t K) : Dbl K := (profile s.prob s.periods).v

/-- Modelled from the spec: `cv_case()`, true iff the constant-velocity phase
duration is non-zero. -/
def solution_t.cv_case (s : solution_t K) : Bool := !Dbl.eq s.periods.T4 (Dbl.fin 0)

/-- The harness test `wrong distance` of `stress_test.cpp`: true when it fails the plan. -/
def harness_wrong_distance (lib : Lib K) (s : solution_t K) : Bool :=
  !is_close s.distance (Dbl.fin s.prob.L) lib.RELTOL_DIST lib.ABSTOL_DIST

/-- The harness test `wrong final velocity` for the two non-cruise kinds. -/
def harness_wrong_final_velocity (lib : Lib K) (s : solution_t K) : Bool :=
  (Dbl.gt s.vf (Dbl.fin s.prob.vf) && lib.afp s.prob) ||
    (Dbl.lt (-s.vf) (-Dbl.fin s.prob.vf) && !lib.afp s.prob)

/-- The harness test `bad time period`. -/
def harness_bad_time_period (lib : Lib K) (s : solution_t K) : Bool :=
  Dbl.lt s.periods.T2 (-Dbl.fin lib.ABSTOL) || Dbl.lt s.periods.T4 (-Dbl.fin lib.ABSTOL) ||
    Dbl.lt s.periods.T6 (-Dbl.fin lib.ABSTOL)

/-- The harness test `peak velocity over V`, the branch taken when `cv_case()` is false. -/
def harness_peak_over_V (s : solution_t K) : Bool := Dbl.gt s.vp (Dbl.fin s.prob.V)

/-- The four filters of the loop body on a candidate `x`, as one predicate. -/
def passes (lib : Lib K) (prob : problem_t K) (x : Dbl K) : Bool :=
  let vp := Dbl.fin prob.v0 + Dbl.fin (1 / 4) * Dbl.fin prob.J * (x * x)
  !((Dbl.lt vp (Dbl.fin 0) && lib.afp prob) || (Dbl.lt (-vp) (Dbl.fin 0) && !lib.afp prob)) &&
  !((Dbl.gt vp (Dbl.fin prob.vf) && lib.afp prob) ||
      (Dbl.lt (-vp) (-Dbl.fin prob.vf) && !lib.afp prob)) &&
  !Dbl.gt (Dbl.fin prob.J * Dbl.fin (1 / 2) * x) (Dbl.fin prob.A) &&
  is_close ((Dbl.fin prob.v0 + vp) / Dbl.fin 2 * x) (Dbl.fin prob.L) lib.RELTOL lib.ABSTOL

/-- The plan of the hypothesis for a candidate `x`: `T1 = T3 = x/2`, the rest zero. -/
def plan_of (prob : problem_t K) (x : Dbl K) : solution_t K :=
  ⟨prob, ⟨Dbl.fin (1 / 2) * x, Dbl.fin 0, Dbl.fin (1 / 2) * x, Dbl.fin 0, Dbl.fin 0, Dbl.fin 0,
    Dbl.fin 0⟩, solution_type_t.NCV_NCA⟩

/-- The first of the three candidates, in root order, that passes the filters. -/
def first_surviving (lib : Lib K) (prob : problem_t K) (r : roots_t K) : Option (Dbl K) :=
  [r.1.re, r.2.1.re, r.2.2.re].find? (passes lib prob)

/-- What the filters say of a finite candidate `x`, in the field `K`. -/
def accepted (lib : Lib K) (prob : problem_t K) (x : K) : Prop :=
  (lib.afp prob = true → 0 ≤ prob.v0 + 1 / 4 * prob.J * (x * x)) ∧
  (lib.afp prob = false → prob.v0 + 1 / 4 * prob.J * (x * x) ≤ 0) ∧
  prob.v0 + 1 / 4 * prob.J * (x * x) ≤ prob.vf ∧
  prob.J * (1 / 2) * x ≤ prob.A ∧
  |(prob.v0 + (prob.v0 + 1 / 4 * prob.J * (x * x))) / 2 * x - prob.L| ≤
    max lib.ABSTOL (lib.RELTOL * max |(prob.v0 + (prob.v0 + 1 / 4 * prob.J * (x * x))) / 2 * x|
      |prob.L|)

/-- The square root `std::sqrt(ra+0i)` that `ncv_nca_x_roots` takes. -/
def ncv_nca_sqrt_ra (lib : Lib K) (prob : problem_t K) : complex K :=
  let J : Dbl K := Dbl.fin prob.J
  let L : Dbl K := Dbl.fin prob.L
  let v_0 : Dbl K := Dbl.fin prob.v0
  let ra := Dbl.fin 27 * L * L + Dbl.fin 32 * Dbl.pow3 v_0 / J
  lib.csqrt (complex.radd ra ⟨Dbl.fin 0, Dbl.fin 0⟩)

/-- The constant coefficient `d` that `ncv_nca_x_roots` hands to `solve_cubic`. -/
def ncv_nca_d (lib : Lib K) (prob : problem_t K) : complex K :=
  let J : Dbl K := Dbl.fin prob.J
  let L : Dbl K := Dbl.fin prob.L
  let v_0 : Dbl K := Dbl.fin prob.v0
  let ra := Dbl.fin 27 * L * L + Dbl.fin 32 * Dbl.pow3 v_0 / J
  let sqrt3 := lib.sqrt3
  let z := ncv_nca_z lib prob
  complex.add
    (complex.subr
      (complex.divr
        (complex.rmul (Dbl.fin (-4) / Dbl.fin 9 * sqrt3)
          (lib.csqrt (complex.radd ra ⟨Dbl.fin 0, Dbl.fin 0⟩)))
        J)
      (Dbl.fin 4 * L / J))
    (complex.rdiv (Dbl.fin 128 / Dbl.fin 3 * Dbl.pow3 v_0) z)

end code

section examples

/-- A library instance over the rationals for the problem `ex_prob`: its
`solve_cubic` returns `2` and `-1 ± 2i`, the roots of `x^3 + x - 10`;
`std::sqrt(3.0)` is the approximation `7/4` and the complex square root
returns `13/2`, the root of `ra = 169/4` of that problem. -/
def ex_lib : Lib ℚ where
  sqrt3 := Dbl.fin (7 / 4)
  csqrt := fun _ => ⟨Dbl.fin (13 / 2), Dbl.fin 0⟩
  solve_cubic := fun _ _ _ _ =>
    (⟨Dbl.fin 2, Dbl.fin 0⟩, ⟨Dbl.fin (-1), Dbl.fin 2⟩, ⟨Dbl.fin (-1), Dbl.fin (-2)⟩)
  afp := fun p => decide (0 ≤ p.L)
  RELTOL := 1 / 1000000
  ABSTOL := 1 / 1000000
  RELTOL_DIST := 1 / 1000
  ABSTOL_DIST := 1 / 1000

/-- An acceleration-first problem that `ncv_nca` solves: the perturbed jerk is
`1`, the cubic is `x^3 + x - 10` and its real root `2` is accepted. -/
def ex_prob : problem_t ℚ :=
  { V := 2, A := 1, D := 1, J := 100 / 99, L := 5 / 4, v0 := 1 / 8, vf := 9 / 8 }

/-- The plan returned on `ex_prob`. -/
def ex_sol : solution_t ℚ :=
  ⟨{ V := 2, A := 1, D := 1, J := 1, L := 5 / 4, v0 := 1 / 8, vf := 9 / 8 },
   ⟨Dbl.fin 1, Dbl.fin 0, Dbl.fin 1, Dbl.fin 0, Dbl.fin 0, Dbl.fin 0, Dbl.fin 0⟩,
   solution_type_t.NCV_NCA⟩

/-- A library instance over the rationals for the problem `neg_prob`: its
`solve_cubic` returns `1/125000` and `-1/250000 ± i/2`, the three roots of the
cubic of that problem; the square roots are the approximations `7/4` of
`sqrt 3` and `1/32` of `sqrt ra`. -/
def neg_lib : Lib ℚ where
  sqrt3 := Dbl.fin (7 / 4)
  csqrt := fun _ => ⟨Dbl.fin (1 / 32), Dbl.fin 0⟩
  solve_cubic := fun _ _ _ _ =>
    (⟨Dbl.fin (1 / 125000), Dbl.fin 0⟩, ⟨Dbl.fin (-1 / 250000), Dbl.fin (1 / 2)⟩,
      ⟨Dbl.fin (-1 / 250000), Dbl.fin (-1 / 2)⟩)
  afp := fun p => decide (0 ≤ p.L)
  RELTOL := 1 / 1000000
  ABSTOL := 1 / 1000000
  RELTOL_DIST := 1 / 1000
  ABSTOL_DIST := 1 / 1000

/-- An acceleration-first problem with a tiny distance: the perturbed jerk is
`1` and the cubic is `x^3 + (1/4 - 48/10^12) x - 8 L`. -/
def neg_prob : problem_t ℚ :=
  { V := 1, A := 1, D := 1, J := 100 / 99, L := 1 / 4000000 + 16 / 10 ^ 18,
    v0 := 1 / 32 - 6 / 10 ^ 12, vf := 1 / 32 }

/-- The plan returned on `neg_prob`: its `T1` and `T3` are negative. -/
def neg_sol : solution_t ℚ :=
  ⟨{ V := 1, A := 1, D := 1, J := 1, L := 1 / 4000000 + 16 / 10 ^ 18,
     v0 := 1 / 32 - 6 / 10 ^ 12, vf := 1 / 32 },
   ⟨Dbl.fin (-1 / 500000), Dbl.fin 0, Dbl.fin (-1 / 500000), Dbl.fin 0, Dbl.fin 0, Dbl.fin 0,
     Dbl.fin 0⟩,
   solution_type_t.NCV_NCA⟩

/-- A library instance over the rationals for the problem `rest_prob`: its
`solve_cubic` returns `1` and `-1/2 ± (13/15) i`, the real root of `x^3 = 1`
and the complex roots with their imaginary part `sqrt 3 / 2` approximated. -/
def rest_lib : Lib ℚ where
  sqrt3 := Dbl.fin (7 / 4)
  csqrt := fun _ => ⟨Dbl.fin (9 / 14), Dbl.fin 0⟩
  solve_cubic := fun _ _ _ _ =>
    (⟨Dbl.fin 1, Dbl.fin 0⟩, ⟨Dbl.fin (-1 / 2), Dbl.fin (13 / 15)⟩,
      ⟨Dbl.fin (-1 / 2), Dbl.fin (-13 / 15)⟩)
  afp := fun p => decide (0 ≤ p.L)
  RELTOL := 1 / 1000000
  ABSTOL := 1 / 1000000
  RELTOL_DIST := 1 / 1000
  ABSTOL_DIST := 1 / 1000

/-- The rest-to-rest scenario `V = A = D = J = 1`, `v0 = vf = 0` with
`L = 99/800`: the perturbed jerk is `99/100` and the cubic is `x^3 = 1`. -/
def rest_prob : problem_t ℚ :=
  { V := 1, A := 1, D := 1, J := 1, L := 99 / 800, v0 := 0, vf := 0 }

/-- A library instance over the rationals for the degenerate problem
`zero_prob`: the complex square root returns `0`, the root of `ra = 0`. -/
def zero_lib : Lib ℚ where
  sqrt3 := Dbl.fin (7 / 4)
  csqrt := fun _ => ⟨Dbl.fin 0, Dbl.fin 0⟩
  solve_cubic := fun _ _ _ _ =>
    (⟨Dbl.fin 0, Dbl.fin 0⟩, ⟨Dbl.fin 0, Dbl.fin 0⟩, ⟨Dbl.fin 0, Dbl.fin 0⟩)
  afp := fun p => decide (0 ≤ p.L)
  RELTOL := 1 / 1000000
  ABSTOL := 1 / 1000000
  RELTOL_DIST := 1 / 1000
  ABSTOL_DIST := 1 / 1000

/-- A degenerate problem, `L = 0` from rest: `ra = 0` and `z = 0`. -/
def zero_prob : problem_t ℚ :=
  { V := 1, A := 1, D := 1, J := 1, L := 0, v0 := 0, vf := 0 }

/-- The problem `ex_prob` with the velocity ceiling lowered to its `vf = 9/8`. -/
def top_prob : problem_t ℚ :=
  { V := 9 / 8, A := 1, D := 1, J := 100 / 99, L := 5 / 4, v0 := 1 / 8, vf := 9 / 8 }

/-- The plan returned on `top_prob`. -/
def top_sol : solution_t ℚ :=
  ⟨{ V := 9 / 8, A := 1, D := 1, J := 1, L := 5 / 4, v0 := 1 / 8, vf := 9 / 8 },
   ⟨Dbl.fin 1, Dbl.fin 0, Dbl.fin 1, Dbl.fin 0, Dbl.fin 0, Dbl.fin 0, Dbl.fin 0⟩,
   solution_type_t.NCV_NCA⟩

/-- A deceleration-first transformed problem: `L`, `v0` and `vf` are negative,
the perturbed jerk is `1` and `-2` is a root of its cubic `x^3 - x + 6`. -/
def dfp_prob : problem_t ℚ :=
  { V := 1, A := 1, D := 1, J := 100 / 99, L := -3 / 4, v0 := -1 / 8, vf := -1 / 16 }

end examples

section lemmas

variable {K : Type} [LinearOrderedField K]

@[simp] theorem Dbl.fin_add_fin (a b : K) : (Dbl.fin a + Dbl.fin b : Dbl K) = Dbl.fin (a + b) := rfl

@[simp] theorem Dbl.fin_sub_fin (a b : K) : (Dbl.fin a - Dbl.fin b : Dbl K) = Dbl.fin (a - b) := rfl

@[simp] theorem Dbl.fin_mul_fin (a b : K) : (Dbl.fin a * Dbl.fin b : Dbl K) = Dbl.fin (a * b) := rfl

@[simp] theorem Dbl.neg_fin (a : K) : (-Dbl.fin a : Dbl K) = Dbl.fin (-a) := rfl

@[simp] theorem Dbl.neg_nan : (-Dbl.nan : Dbl K) = Dbl.nan := rfl

@[simp] theorem Dbl.add_nan (a : Dbl K) : a + Dbl.nan = Dbl.nan := by cases a <;> rfl

@[simp] theorem Dbl.nan_add (a : Dbl K) : Dbl.nan + a = Dbl.nan := rfl

@[simp] theorem Dbl.mul_nan (a : Dbl K) : a * Dbl.nan = Dbl.nan := by cases a <;> rfl

@[simp] theorem Dbl.nan_mul (a : Dbl K) : Dbl.nan * a = Dbl.nan := rfl

@[simp] theorem Dbl.nan_div (a : Dbl K) : Dbl.nan / a = Dbl.nan := rfl

theorem Dbl.fin_div_def (a b : K) :
    (Dbl.fin a / Dbl.fin b : Dbl K) = if b = 0 then Dbl.nan else Dbl.fin (a / b) := rfl

theorem Dbl.fin_div_fin (a b : K) (hb : b ≠ 0) :
    (Dbl.fin a / Dbl.fin b : Dbl K) = Dbl.fin (a / b) := by
  show Dbl.div (Dbl.fin a) (Dbl.fin b) = _
  simp [Dbl.div, hb]

@[simp] theorem Dbl.fin_div_two (a : K) : (Dbl.fin a / Dbl.fin 2 : Dbl K) = Dbl.fin (a / 2) :=
  Dbl.fin_div_fin a 2 two_ne_zero

@[simp] theorem Dbl.fin_div_six (a : K) : (Dbl.fin a / Dbl.fin 6 : Dbl K) = Dbl.fin (a / 6) :=
  Dbl.fin_div_fin a 6 (by norm_num)

@[simp] theorem Dbl.lt_fin_fin (a b : K) : Dbl.lt (Dbl.fin a) (Dbl.fin b) = decide (a < b) := rfl

@[simp] theorem Dbl.gt_fin_fin (a b : K) : Dbl.gt (Dbl.fin a) (Dbl.fin b) = decide (b < a) := rfl

@[simp] theorem Dbl.lt_nan_left (a : Dbl K) : Dbl.lt Dbl.nan a = false := rfl

@[simp] theorem Dbl.lt_nan_right (a : Dbl K) : Dbl.lt a Dbl.nan = false := by cases a <;> rfl

@[simp] theorem Dbl.gt_nan_left (a : Dbl K) : Dbl.gt Dbl.nan a = false := by cases a <;> rfl

@[simp] theorem Dbl.gt_nan_right (a : Dbl K) : Dbl.gt a Dbl.nan = false := rfl

@[simp] theorem Dbl.eq_fin_fin (a b : K) : Dbl.eq (Dbl.fin a) (Dbl.fin b) = decide (a = b) := rfl

@[simp] theorem Dbl.eq_nan_left (a : Dbl K) : Dbl.eq Dbl.nan a = false := rfl

@[simp] theorem is_close_nan_left (b : Dbl K) (r t : K) : is_close Dbl.nan b r t = false := rfl

@[simp] theorem is_close_fin_fin (x y r t : K) :
    is_close (Dbl.fin x) (Dbl.fin y) r t = decide (|x - y| ≤ max t (r * max |x| |y|)) := rfl

/-- The loop body returns the plan of its candidate exactly when the candidate
passes the four filters. -/
theorem ncv_nca_candidate_eq (lib : Lib K) (prob : problem_t K) (xc : complex K) :
    ncv_nca_candidate lib prob xc =
      if passes lib prob xc.re = true then some (plan_of prob xc.re) else none := by
  unfold ncv_nca_candidate passes plan_of
  simp only []
  cases lib.afp prob <;> simp only [Bool.and_true, Bool.and_false, Bool.not_true, Bool.not_false,
    Bool.or_false, Bool.false_or] <;> split_ifs <;> simp_all

/-- A not-a-number candidate fails the filters. -/
theorem passes_nan (lib : Lib K) (prob : problem_t K) : passes lib prob Dbl.nan = false := by
  simp [passes]

/-- A finite candidate passes the filters exactly when `accepted` holds of it. -/
theorem passes_fin_iff (lib : Lib K) (prob : problem_t K) (x : K) :
    passes lib prob (Dbl.fin x) = true ↔ accepted lib prob x := by
  unfold passes accepted
  cases h : lib.afp prob
  · simp only [h, and_assoc, Dbl.fin_add_fin, Dbl.fin_mul_fin, Dbl.neg_fin, Dbl.lt_fin_fin,
      Dbl.gt_fin_fin, Dbl.fin_div_two, is_close_fin_fin, Bool.and_true, Bool.and_false,
      Bool.not_true, Bool.not_false, Bool.or_false, Bool.false_or, Bool.and_eq_true,
      Bool.not_eq_true', decide_eq_false_iff_not, decide_eq_true_eq, not_lt, neg_nonneg,
      neg_le_neg_iff]
    tauto
  · simp only [h, and_assoc, Dbl.fin_add_fin, Dbl.fin_mul_fin, Dbl.neg_fin, Dbl.lt_fin_fin,
      Dbl.gt_fin_fin, Dbl.fin_div_two, is_close_fin_fin, Bool.and_true, Bool.and_false,
      Bool.not_true, Bool.not_false, Bool.or_false, Bool.false_or, Bool.and_eq_true,
      Bool.not_eq_true', decide_eq_false_iff_not, decide_eq_true_eq, not_lt]
    tauto

/-- A candidate that passes the filters is finite and accepted. -/
theorem passes_iff (lib : Lib K) (prob : problem_t K) (x : Dbl K) :
    passes lib prob x = true ↔ ∃ y, x = Dbl.fin y ∧ accepted lib prob y := by
  cases x with
  | nan => simp [passes_nan]
  | fin y => simp [passes_fin_iff]

/-- The loop of `ncv_nca` is the search for the first surviving candidate. -/
theorem ncv_nca_eq_first (lib : Lib K) (p : problem_t K) :
    ncv_nca lib p =
      (first_surviving lib (perturb p) (ncv_nca_x_roots lib (perturb p))).map
        (plan_of (perturb p)) := by
  unfold ncv_nca first_surviving
  simp only [ncv_nca_candidate_eq, List.find?]
  cases h1 : passes lib (perturb p) (ncv_nca_x_roots lib (perturb p)).1.re <;>
    cases h2 : passes lib (perturb p) (ncv_nca_x_roots lib (perturb p)).2.1.re <;>
    cases h3 : passes lib (perturb p) (ncv_nca_x_roots lib (perturb p)).2.2.re <;> simp

/-- A returned plan is the plan of an accepted finite candidate, the real part
of one of the three roots. -/
theorem ncv_nca_some (lib : Lib K) (p : problem_t K) (s : solution_t K)
    (h : ncv_nca lib p = some s) :
    ∃ x : K, accepted lib (perturb p) x ∧ s = plan_of (perturb p) (Dbl.fin x) ∧
      ((ncv_nca_x_roots lib (perturb p)).1.re = Dbl.fin x ∨
       (ncv_nca_x_roots lib (perturb p)).2.1.re = Dbl.fin x ∨
       (ncv_nca_x_roots lib (perturb p)).2.2.re = Dbl.fin x) := by
  rw [ncv_nca_eq_first] at h
  simp only [Option.map_eq_some', first_surviving] at h
  obtain ⟨x, hx, rfl⟩ := h
  have hp := List.find?_some hx
  have hm := List.mem_of_find?_eq_some hx
  obtain ⟨y, rfl, hy⟩ := (passes_iff lib (perturb p) x).1 hp
  refine ⟨y, hy, rfl, ?_⟩
  simpa [eq_comm] using hm

/-- Loosening both tolerances keeps `is_close` true. -/
theorem is_close_mono (a b : Dbl K) (r r' t t' : K) (hr : r ≤ r') (ht : t ≤ t')
    (h : is_close a b r t = true) : is_close a b r' t' = true := by
  cases a with
  | nan => simp at h
  | fin x =>
    cases b with
    | nan => simp [is_close] at h
    | fin y =>
      simp only [is_close_fin_fin, decide_eq_true_eq] at h ⊢
      have hm : 0 ≤ max |x| |y| := le_max_of_le_left (abs_nonneg x)
      exact h.trans (max_le_max ht (mul_le_mul_of_nonneg_right hr hm))

/-- The distance of the plan of a finite candidate `x`, in closed form. -/
theorem distance_plan_of (prob : problem_t K) (x : K) :
    (plan_of prob (Dbl.fin x)).distance =
      Dbl.fin (2 * prob.v0 * (1 / 2 * x) + prob.J * (1 / 2 * x) ^ 3) := by
  simp only [solution_t.distance, profile, accel_ramp, phase, plan_of, Dbl.fin_add_fin,
    Dbl.fin_mul_fin, Dbl.neg_fin, Dbl.fin_div_two, Dbl.fin_div_six]
  congr 1
  ring

/-- The end velocity of the plan of a finite candidate `x`, in closed form. -/
theorem vf_plan_of (prob : problem_t K) (x : K) :
    (plan_of prob (Dbl.fin x)).vf = Dbl.fin (prob.v0 + prob.J * (1 / 2 * x) ^ 2) := by
  simp only [solution_t.vf, profile, accel_ramp, phase, plan_of, Dbl.fin_add_fin,
    Dbl.fin_mul_fin, Dbl.neg_fin, Dbl.fin_div_two, Dbl.fin_div_six]
  congr 1
  ring

/-- The peak velocity of the plan of a finite candidate `x`, in closed form. -/
theorem vp_plan_of (prob : problem_t K) (x : K) :
    (plan_of prob (Dbl.fin x)).vp = Dbl.fin (prob.v0 + prob.J * (1 / 2 * x) ^ 2) := by
  simp only [solution_t.vp, accel_ramp, phase, plan_of, Dbl.fin_add_fin,
    Dbl.fin_mul_fin, Dbl.neg_fin, Dbl.fin_div_two, Dbl.fin_div_six]
  congr 1
  ring

/-- With `v0 = vf = 0`, a positive perturbed jerk, and `L > 0` beyond the
default tolerance of zero, no candidate is accepted. -/
theorem not_accepted_at_rest (lib : Lib K) (q : problem_t K) (x : K)
    (hv0 : q.v0 = 0) (hvf : q.vf = 0) (hJ : 0 < q.J) (hL : 0 < q.L)
    (hA : lib.ABSTOL < q.L) (hR : lib.RELTOL < 1) : ¬ accepted lib q x := by
  rintro ⟨-, -, hle, -, hclose⟩
  rw [hv0, hvf] at hle
  have hx : x = 0 := by
    by_contra hne
    have : 0 < x * x := mul_self_pos.2 hne
    have : 0 < 1 / 4 * q.J * (x * x) := by positivity
    linarith
  rw [hx, mul_zero, zero_sub, abs_neg, abs_zero, abs_of_pos hL,
    max_eq_right hL.le, le_max_iff] at hclose
  rcases hclose with hc | hc
  · exact absurd hA (not_lt.2 hc)
  · have : lib.RELTOL * q.L < 1 * q.L := mul_lt_mul_of_pos_right hR hL
    linarith

/-- With `z == 0` false, `ncv_nca_x_roots` is the call of `solve_cubic` on
`a = 1`, `b = 0`, `c = 8*v_0/J` and the coefficient `d`. -/
theorem ncv_nca_x_roots_of_ne (lib : Lib K) (prob : problem_t K)
    (hz : complex.eqr (ncv_nca_z lib prob) (Dbl.fin 0) = false) :
    ncv_nca_x_roots lib prob =
      lib.solve_cubic (Dbl.fin 1) (Dbl.fin 0) (Dbl.fin 8 * Dbl.fin prob.v0 / Dbl.fin prob.J)
        (ncv_nca_d lib prob) := by
  simp only [ncv_nca_x_roots, hz, ncv_nca_d]
  rfl

/-- The denominator `z` in the field `K`, for a finite square root `a + b i`. -/
theorem ncv_nca_z_eq (lib : Lib K) (prob : problem_t K) (r3 a b : K) (hJ : prob.J ≠ 0)
    (h3 : lib.sqrt3 = Dbl.fin r3) (hs : ncv_nca_sqrt_ra lib prob = ⟨Dbl.fin a, Dbl.fin b⟩) :
    ncv_nca_z lib prob =
      ⟨Dbl.fin (prob.J * prob.J * prob.J * (r3 * a / prob.J + 9 * prob.L / prob.J)),
       Dbl.fin (prob.J * prob.J * prob.J * (r3 * b / prob.J))⟩ := by
  have hdef : ncv_nca_z lib prob =
      complex.rmul (Dbl.pow3 (Dbl.fin prob.J))
        (complex.addr
          (complex.divr (complex.rmul lib.sqrt3 (ncv_nca_sqrt_ra lib prob)) (Dbl.fin prob.J))
          (Dbl.fin 9 * Dbl.fin prob.L / Dbl.fin prob.J)) := rfl
  rw [hdef, hs, h3]
  simp only [complex.rmul, complex.divr, complex.addr, Dbl.pow3,
    Dbl.fin_mul_fin, Dbl.fin_div_def, hJ, if_false, Dbl.fin_add_fin]

/-- The coefficient `d` in the field `K`, for a finite square root `a + b i`
and a denominator `z = zr + zi i` that is not zero. -/
theorem ncv_nca_d_eq (lib : Lib K) (prob : problem_t K) (r3 a b : K) (hJ : prob.J ≠ 0)
    (h3 : lib.sqrt3 = Dbl.fin r3) (hs : ncv_nca_sqrt_ra lib prob = ⟨Dbl.fin a, Dbl.fin b⟩)
    (hN : (prob.J * prob.J * prob.J * (r3 * a / prob.J + 9 * prob.L / prob.J)) *
        (prob.J * prob.J * prob.J * (r3 * a / prob.J + 9 * prob.L / prob.J)) +
      (prob.J * prob.J * prob.J * (r3 * b / prob.J)) *
        (prob.J * prob.J * prob.J * (r3 * b / prob.J)) ≠ 0) :
    ncv_nca_d lib prob =
      ⟨Dbl.fin (-4 / 9 * r3 * a / prob.J - 4 * prob.L / prob.J +
          (128 / 3 * (prob.v0 * prob.v0 * prob.v0) *
              (prob.J * prob.J * prob.J * (r3 * a / prob.J + 9 * prob.L / prob.J)) +
            0 * (prob.J * prob.J * prob.J * (r3 * b / prob.J))) /
          ((prob.J * prob.J * prob.J * (r3 * a / prob.J + 9 * prob.L / prob.J)) *
              (prob.J * prob.J * prob.J * (r3 * a / prob.J + 9 * prob.L / prob.J)) +
            (prob.J * prob.J * prob.J * (r3 * b / prob.J)) *
              (prob.J * prob.J * prob.J * (r3 * b / prob.J)))),
       Dbl.fin (-4 / 9 * r3 * b / prob.J +
          (0 * (prob.J * prob.J * prob.J * (r3 * a / prob.J + 9 * prob.L / prob.J)) -
            128 / 3 * (prob.v0 * prob.v0 * prob.v0) *
              (prob.J * prob.J * prob.J * (r3 * b / prob.J))) /
          ((prob.J * prob.J * prob.J * (r3 * a / prob.J + 9 * prob.L / prob.J)) *
              (prob.J * prob.J * prob.J * (r3 * a / prob.J + 9 * prob.L / prob.J)) +
            (prob.J * prob.J * prob.J * (r3 * b / prob.J)) *
              (prob.J * prob.J * prob.J * (r3 * b / prob.J))))⟩ := by
  have hdef : ncv_nca_d lib prob =
      complex.add
        (complex.subr
          (complex.divr
            (complex.rmul (Dbl.fin (-4) / Dbl.fin 9 * lib.sqrt3) (ncv_nca_sqrt_ra lib prob))
            (Dbl.fin prob.J))
          (Dbl.fin 4 * Dbl.fin prob.L / Dbl.fin prob.J))
        (complex.rdiv (Dbl.fin 128 / Dbl.fin 3 * Dbl.pow3 (Dbl.fin prob.v0))
          (ncv_nca_z lib prob)) := rfl
  have h9 : (9 : K) ≠ 0 := by norm_num
  have h3' : (3 : K) ≠ 0 := by norm_num
  rw [hdef, ncv_nca_z_eq lib prob r3 a b hJ h3 hs, hs, h3]
  simp only [complex.rmul, complex.divr, complex.subr, complex.add, complex.rdiv, complex.div,
    Dbl.pow3, Dbl.fin_mul_fin, Dbl.fin_div_def, hJ, h9, h3', hN, if_false, Dbl.fin_add_fin,
    Dbl.fin_sub_fin]

/-- The algebra behind the coefficient `d`: with `r3^2 = 3` and
`(a + b i)^2 = ra`, the real part of `d` is `-8 L / J` and its imaginary part
is zero. -/
theorem cubic_constant_parts (J L v r3 a b : K) (hJ : J ≠ 0) (h3sq : r3 ^ 2 = 3)
    (hre : a ^ 2 - b ^ 2 = 27 * L * L + 32 * (v * v * v) / J) (him : 2 * a * b = 0)
    (hN : (J * J * J * (r3 * a / J + 9 * L / J)) * (J * J * J * (r3 * a / J + 9 * L / J)) +
      (J * J * J * (r3 * b / J)) * (J * J * J * (r3 * b / J)) ≠ 0) :
    -4 / 9 * r3 * a / J - 4 * L / J +
        (128 / 3 * (v * v * v) * (J * J * J * (r3 * a / J + 9 * L / J)) +
          0 * (J * J * J * (r3 * b / J))) /
        ((J * J * J * (r3 * a / J + 9 * L / J)) * (J * J * J * (r3 * a / J + 9 * L / J)) +
          (J * J * J * (r3 * b / J)) * (J * J * J * (r3 * b / J))) = -8 * L / J ∧
    -4 / 9 * r3 * b / J +
        (0 * (J * J * J * (r3 * a / J + 9 * L / J)) -
          128 / 3 * (v * v * v) * (J * J * J * (r3 * b / J))) /
        ((J * J * J * (r3 * a / J + 9 * L / J)) * (J * J * J * (r3 * a / J + 9 * L / J)) +
          (J * J * J * (r3 * b / J)) * (J * J * J * (r3 * b / J))) = 0 := by
  have hzr : J * J * J * (r3 * a / J + 9 * L / J) = J * J * (r3 * a + 9 * L) := by
    field_simp
    ring
  have hzi : J * J * J * (r3 * b / J) = J * J * (r3 * b) := by
    field_simp
    ring
  rw [hzr, hzi] at hN ⊢
  have hp2 : 96 * (v * v * v) = J * ((r3 * a) ^ 2 - (r3 * b) ^ 2 - 81 * L * L) := by
    have h1 : (a ^ 2 - b ^ 2) * J = 27 * L * L * J + 32 * (v * v * v) := by
      rw [hre]
      field_simp
    linear_combination (-3 : K) * h1 - J * (a ^ 2 - b ^ 2) * h3sq
  have hpq : (r3 * a) * (r3 * b) = 0 := by
    linear_combination (a * b) * h3sq + (3 / 2 : K) * him
  have e1 : -4 / 9 * r3 * a / J = -4 / 9 * (r3 * a) / J := by ring
  have e2 : -4 / 9 * r3 * b / J = -4 / 9 * (r3 * b) / J := by ring
  rw [e1, e2]
  clear e1 e2 hzr hzi
  generalize r3 * a = p at *
  generalize r3 * b = q at *
  have hE : 96 * (v * v * v) * (p + 9 * L) = (p - 9 * L) * J * ((p + 9 * L) ^ 2 + q ^ 2) := by
    linear_combination (p + 9 * L) * hp2 + (-2 * J * q) * hpq
  have hE2 : 96 * (v * v * v) * q = - q * J * ((p + 9 * L) ^ 2 + q ^ 2) := by
    linear_combination q * hp2 + (2 * J * (p + 9 * L)) * hpq
  have hM : (p + 9 * L) ^ 2 + q ^ 2 ≠ 0 := by
    intro h0
    apply hN
    linear_combination (J ^ 4) * h0
  constructor
  · have hdiv : (128 / 3 * (v * v * v) * (J * J * (p + 9 * L)) + 0 * (J * J * q)) /
        (J * J * (p + 9 * L) * (J * J * (p + 9 * L)) + J * J * q * (J * J * q)) =
        4 / 9 * (p - 9 * L) / J := by
      rw [div_eq_div_iff hN hJ]
      linear_combination (4 / 9 * J ^ 3 : K) * hE
    rw [hdiv]
    field_simp
    ring
  · have hdiv : (0 * (J * J * (p + 9 * L)) - 128 / 3 * (v * v * v) * (J * J * q)) /
        (J * J * (p + 9 * L) * (J * J * (p + 9 * L)) + J * J * q * (J * J * q)) =
        4 / 9 * q / J := by
      rw [div_eq_div_iff hN hJ]
      linear_combination (-4 / 9 * J ^ 3 : K) * hE2
    rw [hdiv]
    field_simp


/-- A denominator `z = zr + zi i` with `z == 0` false has `zr^2 + zi^2 ≠ 0`. -/
theorem norm_ne_zero_of_eqr_false (zr zi : K)
    (hz : complex.eqr (⟨Dbl.fin zr, Dbl.fin zi⟩ : complex K) (Dbl.fin 0) = false) :
    zr * zr + zi * zi ≠ 0 := by
  intro h0
  have h1 : zr = 0 := by nlinarith [mul_self_nonneg zr, mul_self_nonneg zi]
  have h2 : zi = 0 := by nlinarith [mul_self_nonneg zr, mul_self_nonneg zi]
  simp [complex.eqr, h1, h2] at hz

/-- With exact square roots and `z == 0` false, `d` is `-8 L / J`. -/
theorem ncv_nca_d_exact (lib : Lib K) (prob : problem_t K) (r3 a b : K)
    (hJ : prob.J ≠ 0) (h3 : lib.sqrt3 = Dbl.fin r3) (h3sq : r3 ^ 2 = 3)
    (hs : ncv_nca_sqrt_ra lib prob = ⟨Dbl.fin a, Dbl.fin b⟩)
    (hre : a ^ 2 - b ^ 2 = 27 * prob.L * prob.L + 32 * (prob.v0 * prob.v0 * prob.v0) / prob.J)
    (him : 2 * a * b = 0)
    (hz : complex.eqr (ncv_nca_z lib prob) (Dbl.fin 0) = false) :
    ncv_nca_d lib prob = ⟨Dbl.fin (-8 * prob.L / prob.J), Dbl.fin 0⟩ := by
  rw [ncv_nca_z_eq lib prob r3 a b hJ h3 hs] at hz
  have hN := norm_ne_zero_of_eqr_false _ _ hz
  obtain ⟨h1, h2⟩ := cubic_constant_parts prob.J prob.L prob.v0 r3 a b hJ h3sq hre him hN
  rw [ncv_nca_d_eq lib prob r3 a b hJ h3 hs hN, h1, h2]

/-- With principal exact square roots and `J > 0`, the test `z == 0`
is true exactly when `v0 = 0` and `L ≤ 0`. -/
theorem ncv_nca_z_zero_iff (lib : Lib K) (prob : problem_t K) (r3 a : K)
    (hJ : 0 < prob.J)
    (h3 : lib.sqrt3 = Dbl.fin r3) (h3nn : 0 ≤ r3) (h3sq : r3 ^ 2 = 3)
    (hs : ncv_nca_sqrt_ra lib prob = ⟨Dbl.fin a, Dbl.fin 0⟩) (hann : 0 ≤ a)
    (hasq : a ^ 2 = 27 * prob.L * prob.L + 32 * (prob.v0 * prob.v0 * prob.v0) / prob.J) :
    complex.eqr (ncv_nca_z lib prob) (Dbl.fin 0) = true ↔ prob.v0 = 0 ∧ prob.L ≤ 0 := by
  have hJne : prob.J ≠ 0 := hJ.ne'
  rw [ncv_nca_z_eq lib prob r3 a 0 hJne h3 hs]
  have hzr : prob.J * prob.J * prob.J * (r3 * a / prob.J + 9 * prob.L / prob.J) =
      prob.J * prob.J * (r3 * a + 9 * prob.L) := by
    field_simp
    ring
  have hJJ : prob.J * prob.J ≠ 0 := mul_ne_zero hJne hJne
  have hra : 0 ≤ r3 * a := mul_nonneg h3nn hann
  have hsq : (r3 * a) ^ 2 * prob.J =
      81 * prob.L * prob.L * prob.J + 96 * (prob.v0 * prob.v0 * prob.v0) := by
    have h1 : a ^ 2 * prob.J = 27 * prob.L * prob.L * prob.J +
        32 * (prob.v0 * prob.v0 * prob.v0) := by
      rw [hasq]
      field_simp
    linear_combination (3 : K) * h1 + prob.J * a ^ 2 * h3sq
  simp only [complex.eqr, Dbl.eq_fin_fin, hzr, mul_zero, zero_div, decide_True, Bool.and_true,
    decide_eq_true_eq, mul_eq_zero, hJJ, false_or]
  constructor
  · intro h0
    have hL : prob.L ≤ 0 := by linarith
    have hv3 : prob.v0 * prob.v0 * prob.v0 = 0 := by
      have : r3 * a = -(9 * prob.L) := by linarith
      rw [this] at hsq
      linarith
    have hv : prob.v0 = 0 := by
      rcases mul_eq_zero.1 hv3 with h | h
      · rcases mul_eq_zero.1 h with h | h <;> exact h
      · exact h
    exact ⟨hv, hL⟩
  · rintro ⟨hv, hL⟩
    rw [hv] at hsq
    have h2 : (r3 * a) ^ 2 = (-(9 * prob.L)) ^ 2 := by
      have : ((r3 * a) ^ 2 - (-(9 * prob.L)) ^ 2) * prob.J = 0 := by
        linear_combination hsq
      rcases mul_eq_zero.1 this with h | h
      · linarith
      · exact absurd h hJne
    have h3' : r3 * a = -(9 * prob.L) :=
      (pow_left_inj₀ hra (by linarith) two_ne_zero).1 h2
    linarith

/-- A cubic `x^3 + c x - e` with `c ≥ 0` has at most one root that is positive. -/
theorem cubic_root_unique (c e x y : K) (hc : 0 ≤ c)
    (hx0 : 0 < x) (hx : x ^ 3 + c * x - e = 0) (hy : y ^ 3 + c * y - e = 0) : y = x := by
  have hprod : (y - x) * (y ^ 2 + x * y + x ^ 2 + c) = 0 := by
    linear_combination hy - hx
  rcases mul_eq_zero.1 hprod with h | h
  · linarith
  · exfalso
    have h1 : 0 < y ^ 2 + x * y + x ^ 2 := by
      nlinarith [sq_nonneg (y + x / 2), mul_pos hx0 hx0]
    linarith

/-- A cubic `x^3 + c x - e` with `c ≥ 0` and `e > 0` has a positive real root. -/
theorem cubic_root_exists (c e : ℝ) (hc : 0 ≤ c) (he : 0 < e) :
    ∃ x : ℝ, 0 < x ∧ x ^ 3 + c * x - e = 0 := by
  have hcont : ContinuousOn (fun x : ℝ => x ^ 3 + c * x - e) (Set.Icc 0 (e + 1)) := by
    apply Continuous.continuousOn
    continuity
  have hle : (0 : ℝ) ≤ e + 1 := by linarith
  have hmem : (0 : ℝ) ∈ Set.Icc ((fun x : ℝ => x ^ 3 + c * x - e) 0)
      ((fun x : ℝ => x ^ 3 + c * x - e) (e + 1)) := by
    constructor
    · simp only
      nlinarith
    · simp only
      have h1 : e + 1 ≤ (e + 1) ^ 3 := by
        have : (1 : ℝ) ≤ e + 1 := by linarith
        nlinarith [mul_nonneg (sub_nonneg.2 this) (sub_nonneg.2 this)]
      have h2 : 0 ≤ c * (e + 1) := mul_nonneg hc hle
      linarith
  obtain ⟨x, hx, hfx⟩ := intermediate_value_Icc hle hcont hmem
  have hfx' : x ^ 3 + c * x - e = 0 := hfx
  refine ⟨x, ?_, hfx'⟩
  rcases hx.1.eq_or_lt with h0 | h0
  · rw [← h0] at hfx'
    norm_num at hfx'
    linarith
  · exact h0

end lemmas

section example_runs

/-- The solver returns `ex_sol` on `ex_prob`. -/
theorem ex_solved : ncv_nca ex_lib ex_prob = some ex_sol := by
  have hp : perturb ex_prob = ex_sol.prob := by
    norm_num [perturb, ex_prob, ex_sol]
  have hr : ncv_nca_x_roots ex_lib ex_sol.prob =
      (⟨Dbl.fin 2, Dbl.fin 0⟩, ⟨Dbl.fin (-1), Dbl.fin 2⟩, ⟨Dbl.fin (-1), Dbl.fin (-2)⟩) := by
    norm_num [ncv_nca_x_roots, ncv_nca_z, ex_lib, ex_sol, complex.eqr, complex.rmul,
      complex.addr, complex.divr, complex.radd, Dbl.pow3, Dbl.fin_div_def]
  have h1 : passes ex_lib ex_sol.prob (Dbl.fin 2) = true := by
    norm_num [passes, ex_lib, ex_sol]
  rw [ncv_nca_eq_first, hp, hr]
  simp [first_surviving, List.find?, h1]
  norm_num [plan_of, ex_sol]

/-- The solver returns `neg_sol` on `neg_prob`: the real root is rejected by
the filter `vp > v_f`, the real part of the next root passes all four filters. -/
theorem neg_solved : ncv_nca neg_lib neg_prob = some neg_sol := by
  have hp : perturb neg_prob = neg_sol.prob := by
    norm_num [perturb, neg_prob, neg_sol]
  have hr : ncv_nca_x_roots neg_lib neg_sol.prob =
      (⟨Dbl.fin (1 / 125000), Dbl.fin 0⟩, ⟨Dbl.fin (-1 / 250000), Dbl.fin (1 / 2)⟩,
        ⟨Dbl.fin (-1 / 250000), Dbl.fin (-1 / 2)⟩) := by
    norm_num [ncv_nca_x_roots, ncv_nca_z, neg_lib, neg_sol, complex.eqr, complex.rmul,
      complex.addr, complex.divr, complex.radd, Dbl.pow3, Dbl.fin_div_def]
  have h1 : passes neg_lib neg_sol.prob (Dbl.fin (1 / 125000)) = false := by
    norm_num [passes, neg_lib, neg_sol]
  have h2 : passes neg_lib neg_sol.prob (Dbl.fin (-1 / 250000)) = true := by
    rw [passes_fin_iff]
    refine ⟨fun _ => ?_, fun hf => ?_, ?_, ?_, ?_⟩
    · norm_num [neg_sol]
    · norm_num [neg_lib, neg_sol] at hf
    · norm_num [neg_sol]
    · norm_num [neg_sol]
    · apply le_max_of_le_left
      rw [abs_le]
      constructor <;> norm_num [neg_lib, neg_sol]
  rw [ncv_nca_eq_first, hp, hr]
  simp only [first_surviving, List.find?, h1, h2, Option.map_some']
  norm_num [plan_of, neg_sol]

/-- The denominator `z` vanishes on the perturbed `zero_prob`. -/
theorem zero_prob_z : complex.eqr (ncv_nca_z zero_lib (perturb zero_prob)) (Dbl.fin 0) = true := by
  norm_num [ncv_nca_z, zero_lib, zero_prob, perturb, complex.eqr, complex.rmul,
    complex.addr, complex.divr, complex.radd, Dbl.pow3, Dbl.fin_div_def]

/-- The solver returns `top_sol` on `top_prob`. -/
theorem top_solved : ncv_nca ex_lib top_prob = some top_sol := by
  have hp : perturb top_prob = top_sol.prob := by
    norm_num [perturb, top_prob, top_sol]
  have hr : ncv_nca_x_roots ex_lib top_sol.prob =
      (⟨Dbl.fin 2, Dbl.fin 0⟩, ⟨Dbl.fin (-1), Dbl.fin 2⟩, ⟨Dbl.fin (-1), Dbl.fin (-2)⟩) := by
    norm_num [ncv_nca_x_roots, ncv_nca_z, ex_lib, top_sol, complex.eqr, complex.rmul,
      complex.addr, complex.divr, complex.radd, Dbl.pow3, Dbl.fin_div_def]
  have h1 : passes ex_lib top_sol.prob (Dbl.fin 2) = true := by
    norm_num [passes, ex_lib, top_sol]
  rw [ncv_nca_eq_first, hp, hr]
  simp [first_surviving, List.find?, h1]
  norm_num [plan_of, top_sol]

end example_runs

section claims

variable {K : Type} [LinearOrderedField K]

/-- C1 (distance correctness): on every constraint set on which `ncv_nca`
returns a plan, the plan has `T1 = T3`, its `distance()` is the closed form
`2*v0*T1 + J*T1^3` with the plan's own `J` and `v0`, the solver's recomputed
`l = (v0 + vp)/2 * x` at `x = 2*T1` is exactly that value, and, when the default
tolerance is no looser than the distance tolerance, `distance()` is close to the
plan's own `L` within the distance tolerance, so that the harness test
`wrong distance` does not fire. -/
theorem C1_distance_correct (lib : Lib K) (p : problem_t K) (s : solution_t K)
    (hrel : lib.RELTOL ≤ lib.RELTOL_DIST) (habs : lib.ABSTOL ≤ lib.ABSTOL_DIST)
    (h : ncv_nca lib p = some s) :
    ∃ T1 : K, s.periods.T1 = Dbl.fin T1 ∧ s.periods.T3 = Dbl.fin T1 ∧
      s.distance = Dbl.fin (2 * s.prob.v0 * T1 + s.prob.J * T1 ^ 3) ∧
      (s.prob.v0 + (s.prob.v0 + 1 / 4 * s.prob.J * (2 * T1 * (2 * T1)))) / 2 * (2 * T1) =
        2 * s.prob.v0 * T1 + s.prob.J * T1 ^ 3 ∧
      is_close s.distance (Dbl.fin s.prob.L) lib.RELTOL_DIST lib.ABSTOL_DIST = true ∧
      harness_wrong_distance lib s = false := by
  obtain ⟨x, hacc, rfl, -⟩ := ncv_nca_some lib p s h
  have hl : (plan_of (perturb p) (Dbl.fin x)).distance =
      Dbl.fin (((perturb p).v0 + ((perturb p).v0 + 1 / 4 * (perturb p).J * (x * x))) / 2 * x) := by
    rw [distance_plan_of]
    congr 1
    ring
  have hc : is_close (plan_of (perturb p) (Dbl.fin x)).distance (Dbl.fin (perturb p).L)
      lib.RELTOL_DIST lib.ABSTOL_DIST = true := by
    apply is_close_mono _ _ _ _ _ _ hrel habs
    rw [hl, is_close_fin_fin, decide_eq_true_eq]
    exact hacc.2.2.2.2
  refine ⟨1 / 2 * x, rfl, rfl, distance_plan_of _ _, ?_, hc, ?_⟩
  · simp only [plan_of]
    ring
  · simp only [harness_wrong_distance, Bool.not_eq_false']
    exact hc

/-- Witness of C1 on the solved example: the distance of `ex_sol` is within the
distance tolerance of its `L`. -/
theorem C1_distance_correct_witness :
    ncv_nca ex_lib ex_prob = some ex_sol ∧ harness_wrong_distance ex_lib ex_sol = false :=
  ⟨ex_solved,
    (C1_distance_correct ex_lib ex_prob ex_sol (by norm_num [ex_lib]) (by norm_num [ex_lib])
      ex_solved).elim fun _ hT => hT.2.2.2.2.2⟩

/-- C2 (final velocity does not overshoot): every plan returned by `ncv_nca` is
tagged `NCV_NCA`, and its end velocity `vf()` is `v0 + J*T1^2`, which is the
`vp` the solver computed at `x = 2*T1`; it fails neither branch of the harness
test `wrong final velocity`, lies in `[0, vf]` for an acceleration-first
problem, and satisfies `vp ≤ 0` and `vp ≤ vf` for a deceleration-first one. -/
theorem C2_final_velocity_no_overshoot (lib : Lib K) (p : problem_t K) (s : solution_t K)
    (h : ncv_nca lib p = some s) :
    s.type = solution_type_t.NCV_NCA ∧
    ∃ T1 v : K, s.periods.T1 = Dbl.fin T1 ∧ s.periods.T3 = Dbl.fin T1 ∧
      s.vf = Dbl.fin v ∧ v = s.prob.v0 + s.prob.J * T1 ^ 2 ∧
      v = s.prob.v0 + 1 / 4 * s.prob.J * (2 * T1 * (2 * T1)) ∧
      (Dbl.gt s.vf (Dbl.fin s.prob.vf) && lib.afp s.prob) = false ∧
      (Dbl.lt (-s.vf) (-Dbl.fin s.prob.vf) && !lib.afp s.prob) = false ∧
      harness_wrong_final_velocity lib s = false ∧
      (lib.afp s.prob = true → 0 ≤ v ∧ v ≤ s.prob.vf) ∧
      (lib.afp s.prob = false → v ≤ 0 ∧ v ≤ s.prob.vf) := by
  obtain ⟨x, hacc, rfl, -⟩ := ncv_nca_some lib p s h
  obtain ⟨h0, h0', hvf, -, -⟩ := hacc
  have hv : (perturb p).v0 + (perturb p).J * (1 / 2 * x) ^ 2 =
      (perturb p).v0 + 1 / 4 * (perturb p).J * (x * x) := by ring
  have hle : (perturb p).v0 + (perturb p).J * (1 / 2 * x) ^ 2 ≤ (perturb p).vf := hv ▸ hvf
  have hgt : Dbl.gt (plan_of (perturb p) (Dbl.fin x)).vf (Dbl.fin (perturb p).vf) = false := by
    rw [vf_plan_of, Dbl.gt_fin_fin, decide_eq_false_iff_not, not_lt]
    exact hle
  have hlt : Dbl.lt (-(plan_of (perturb p) (Dbl.fin x)).vf) (-Dbl.fin (perturb p).vf) = false := by
    rw [vf_plan_of, Dbl.neg_fin, Dbl.neg_fin, Dbl.lt_fin_fin, decide_eq_false_iff_not, not_lt]
    exact neg_le_neg hle
  refine ⟨rfl, 1 / 2 * x, _, rfl, rfl, vf_plan_of _ _, rfl, ?_, ?_, ?_, ?_, ?_, ?_⟩
  · show (perturb p).v0 + (perturb p).J * (1 / 2 * x) ^ 2 =
      (perturb p).v0 + 1 / 4 * (perturb p).J * (2 * (1 / 2 * x) * (2 * (1 / 2 * x)))
    ring
  · show (Dbl.gt (plan_of (perturb p) (Dbl.fin x)).vf (Dbl.fin (perturb p).vf) &&
      lib.afp (perturb p)) = false
    rw [hgt, Bool.false_and]
  · show (Dbl.lt (-(plan_of (perturb p) (Dbl.fin x)).vf) (-Dbl.fin (perturb p).vf) &&
      !lib.afp (perturb p)) = false
    rw [hlt, Bool.false_and]
  · show (Dbl.gt (plan_of (perturb p) (Dbl.fin x)).vf (Dbl.fin (perturb p).vf) &&
      lib.afp (perturb p) || Dbl.lt (-(plan_of (perturb p) (Dbl.fin x)).vf)
        (-Dbl.fin (perturb p).vf) && !lib.afp (perturb p)) = false
    rw [hgt, hlt, Bool.false_and, Bool.false_and, Bool.false_or]
  · intro ha
    exact ⟨hv ▸ h0 ha, hle⟩
  · intro ha
    exact ⟨hv ▸ h0' ha, hle⟩

/-- Witness of C2 on the solved example: `ex_sol` is tagged `NCV_NCA` and the
harness test of the final velocity does not fire on it. -/
theorem C2_final_velocity_no_overshoot_witness :
    ncv_nca ex_lib ex_prob = some ex_sol ∧ ex_sol.type = solution_type_t.NCV_NCA ∧
      harness_wrong_final_velocity ex_lib ex_sol = false :=
  ⟨ex_solved, (C2_final_velocity_no_overshoot ex_lib ex_prob ex_sol ex_solved).1,
    (C2_final_velocity_no_overshoot ex_lib ex_prob ex_sol ex_solved).2.elim fun _ hT =>
      hT.elim fun _ hv => hv.2.2.2.2.2.2.2.1⟩

/-- C3 (velocity bound respected): on every constraint set with `vf ≤ V` on
which `ncv_nca` returns a plan, the plan has no cruise phase, its
`peakVelocity()` is `v0 + J*T1^2` with the plan's own `J`, and that value is at
most the plan's `V`: the harness test `peak velocity over V` does not fire. -/
theorem C3_peak_velocity_le_V (lib : Lib K) (p : problem_t K) (s : solution_t K)
    (hV : p.vf ≤ p.V) (h : ncv_nca lib p = some s) :
    ∃ T1 v : K, s.periods.T1 = Dbl.fin T1 ∧ s.vp = Dbl.fin v ∧
      v = s.prob.v0 + s.prob.J * T1 ^ 2 ∧ v ≤ s.prob.V ∧
      s.cv_case = false ∧ harness_peak_over_V s = false := by
  obtain ⟨x, hacc, rfl, -⟩ := ncv_nca_some lib p s h
  obtain ⟨-, -, hvf, -, -⟩ := hacc
  have hv : (perturb p).v0 + (perturb p).J * (1 / 2 * x) ^ 2 =
      (perturb p).v0 + 1 / 4 * (perturb p).J * (x * x) := by ring
  have hle : (perturb p).v0 + (perturb p).J * (1 / 2 * x) ^ 2 ≤ (perturb p).V :=
    (hv ▸ hvf).trans hV
  refine ⟨1 / 2 * x, _, rfl, vp_plan_of _ _, rfl, hle, ?_, ?_⟩
  · simp [solution_t.cv_case, plan_of]
  · rw [harness_peak_over_V, vp_plan_of, Dbl.gt_fin_fin, decide_eq_false_iff_not, not_lt]
    exact hle

/-- Witness of C3 on the solved example, where `vf = 9/8 ≤ V = 2`. -/
theorem C3_peak_velocity_le_V_witness :
    ex_prob.vf ≤ ex_prob.V ∧ ncv_nca ex_lib ex_prob = some ex_sol ∧
      harness_peak_over_V ex_sol = false :=
  ⟨by norm_num [ex_prob], ex_solved,
    (C3_peak_velocity_le_V ex_lib ex_prob ex_sol (by norm_num [ex_prob]) ex_solved).elim
      fun _ hT => hT.elim fun _ hv => hv.2.2.2.2.2⟩

/-- C4, counterexample: `neg_prob` is an acceleration-first constraint set with
`A, D, J > 0`, `L ≥ 0` and `0 ≤ v0, vf ≤ V`; the three candidates are the exact
roots `1/125000` and `-1/250000 ± i/2` of its cubic `x^3 + 8 v0 x - 8 L` (the
perturbed jerk is `1`); `ncv_nca` returns a plan with
`T1 = T3 = -1/500000 < -ABSTOL = -1/1000000`. -/
theorem C4_counterexample :
    neg_lib.afp (perturb neg_prob) = true ∧
    (0 < neg_prob.A ∧ 0 < neg_prob.D ∧ 0 < neg_prob.J ∧ 0 ≤ neg_prob.L ∧
      0 ≤ neg_prob.v0 ∧ neg_prob.v0 ≤ neg_prob.V ∧ 0 ≤ neg_prob.vf ∧
      neg_prob.vf ≤ neg_prob.V) ∧
    ((perturb neg_prob).J = 1 ∧
      (1 / 125000 : ℚ) ^ 3 + 8 * neg_prob.v0 * (1 / 125000) - 8 * neg_prob.L = 0 ∧
      (-1 / 250000 : ℚ) ^ 3 - 3 * (-1 / 250000) * (1 / 2) ^ 2 + 8 * neg_prob.v0 * (-1 / 250000)
        - 8 * neg_prob.L = 0 ∧
      3 * (-1 / 250000 : ℚ) ^ 2 * (1 / 2) - (1 / 2) ^ 3 + 8 * neg_prob.v0 * (1 / 2) = 0) ∧
    ncv_nca neg_lib neg_prob = some neg_sol ∧
    neg_sol.periods.T1 = Dbl.fin (-1 / 500000) ∧
    neg_sol.periods.T3 = Dbl.fin (-1 / 500000) ∧
    Dbl.lt neg_sol.periods.T1 (-Dbl.fin neg_lib.ABSTOL) = true := by
  refine ⟨?_, ?_, ?_, neg_solved, rfl, rfl, ?_⟩
  · norm_num [neg_lib, neg_prob, perturb]
  · norm_num [neg_prob]
  · norm_num [neg_prob, perturb]
  · norm_num [neg_lib, neg_sol]

/-- C4, amended (no negative phase duration): on an acceleration-first
constraint set with `v0 ≥ 0` whose `L` exceeds the default absolute tolerance
`ABSTOL ≥ 0`, the default relative tolerance being below `1`, every plan
returned by `ncv_nca` has `T1 = T3 > 0` and `T2 = T4 = T5 = T6 = T7 = 0`: all
seven phase durations are at least `-ABSTOL`. -/
theorem C4_durations_nonneg (lib : Lib K) (p : problem_t K) (s : solution_t K)
    (hafp : lib.afp (perturb p) = true) (hv0 : 0 ≤ p.v0)
    (hA : 0 ≤ lib.ABSTOL) (hR : lib.RELTOL < 1) (hL : lib.ABSTOL < p.L)
    (h : ncv_nca lib p = some s) :
    ∃ T1 : K, 0 < T1 ∧ -lib.ABSTOL ≤ T1 ∧ -lib.ABSTOL ≤ 0 ∧
      s.periods = ⟨Dbl.fin T1, Dbl.fin 0, Dbl.fin T1, Dbl.fin 0, Dbl.fin 0, Dbl.fin 0,
        Dbl.fin 0⟩ := by
  obtain ⟨x, hacc, rfl, -⟩ := ncv_nca_some lib p s h
  obtain ⟨h0, -, -, -, hclose⟩ := hacc
  have hvp := h0 hafp
  have hv0' : 0 ≤ (perturb p).v0 := hv0
  have hL' : lib.ABSTOL < (perturb p).L := hL
  have hLpos : 0 < (perturb p).L := lt_of_le_of_lt hA hL'
  have hx : 0 < x := by
    by_contra hneg
    have hx0 : x ≤ 0 := not_lt.1 hneg
    have hl : ((perturb p).v0 + ((perturb p).v0 + 1 / 4 * (perturb p).J * (x * x))) / 2 * x ≤ 0 :=
      mul_nonpos_of_nonneg_of_nonpos (div_nonneg (add_nonneg hv0' hvp) zero_le_two) hx0
    generalize ((perturb p).v0 + ((perturb p).v0 + 1 / 4 * (perturb p).J * (x * x))) / 2 * x = l
      at hl hclose
    have habs : |l - (perturb p).L| = (perturb p).L - l := by
      rw [abs_of_nonpos (by linarith)]
      ring
    have hm : max |l| |(perturb p).L| ≤ (perturb p).L - l := by
      rw [abs_of_nonpos hl, abs_of_pos hLpos]
      exact max_le (by linarith) (by linarith)
    have hm0 : 0 ≤ max |l| |(perturb p).L| := le_max_of_le_left (abs_nonneg l)
    rw [habs, le_max_iff] at hclose
    rcases hclose with hc | hc
    · linarith
    · have hlt : lib.RELTOL * max |l| |(perturb p).L| < (perturb p).L - l := by
        rcases le_or_lt lib.RELTOL 0 with hr | hr
        · have := mul_nonpos_of_nonpos_of_nonneg hr hm0
          linarith
        · calc lib.RELTOL * max |l| |(perturb p).L|
              ≤ lib.RELTOL * ((perturb p).L - l) := mul_le_mul_of_nonneg_left hm hr.le
            _ < 1 * ((perturb p).L - l) := mul_lt_mul_of_pos_right hR (by linarith)
            _ = (perturb p).L - l := one_mul _
      linarith
  have hT : 0 < 1 / 2 * x := by positivity
  exact ⟨1 / 2 * x, hT, by linarith, by linarith, rfl⟩

/-- Witness of the amended C4 on the solved example, where `L = 5/4` exceeds
`ABSTOL = 1/1000000`. -/
theorem C4_durations_nonneg_witness :
    (ex_lib.afp (perturb ex_prob) = true ∧ 0 ≤ ex_prob.v0 ∧ 0 ≤ ex_lib.ABSTOL ∧
      ex_lib.RELTOL < 1 ∧ ex_lib.ABSTOL < ex_prob.L ∧ ncv_nca ex_lib ex_prob = some ex_sol) ∧
    ∃ T1 : ℚ, 0 < T1 ∧ -ex_lib.ABSTOL ≤ T1 ∧ -ex_lib.ABSTOL ≤ 0 ∧
      ex_sol.periods = ⟨Dbl.fin T1, Dbl.fin 0, Dbl.fin T1, Dbl.fin 0, Dbl.fin 0, Dbl.fin 0,
        Dbl.fin 0⟩ :=
  ⟨⟨by norm_num [ex_lib, ex_prob, perturb], by norm_num [ex_prob], by norm_num [ex_lib],
      by norm_num [ex_lib], by norm_num [ex_lib, ex_prob], ex_solved⟩,
    C4_durations_nonneg ex_lib ex_prob ex_sol (by norm_num [ex_lib, ex_prob, perturb])
      (by norm_num [ex_prob]) (by norm_num [ex_lib]) (by norm_num [ex_lib])
      (by norm_num [ex_lib, ex_prob]) ex_solved⟩

/-- C5, counterexample: in the scenario `V = A = D = J = 1`, `v0 = vf = 0` with
`L = 99/800`, the cubic `x^3 = 8 L / J` of the perturbed jerk `J = 99/100` has
the real root `1`, whose peak velocity `99/400` stays below `V`, and `ncv_nca`
returns no plan. -/
theorem C5_counterexample :
    rest_prob = ⟨1, 1, 1, 1, 99 / 800, 0, 0⟩ ∧
    (1 : ℚ) ^ 3 = 8 * rest_prob.L / (perturb rest_prob).J ∧
    (perturb rest_prob).v0 + 1 / 4 * (perturb rest_prob).J * (1 * 1) < rest_prob.V ∧
    (ncv_nca_x_roots rest_lib (perturb rest_prob)).1 = ⟨Dbl.fin 1, Dbl.fin 0⟩ ∧
    ncv_nca rest_lib rest_prob = none := by
  have hp : perturb rest_prob = ⟨1, 1, 1, 99 / 100, 99 / 800, 0, 0⟩ := by
    norm_num [perturb, rest_prob]
  have hr : ncv_nca_x_roots rest_lib ⟨1, 1, 1, 99 / 100, 99 / 800, 0, 0⟩ =
      (⟨Dbl.fin 1, Dbl.fin 0⟩, ⟨Dbl.fin (-1 / 2), Dbl.fin (13 / 15)⟩,
        ⟨Dbl.fin (-1 / 2), Dbl.fin (-13 / 15)⟩) := by
    norm_num [ncv_nca_x_roots, ncv_nca_z, rest_lib, complex.eqr, complex.rmul,
      complex.addr, complex.divr, complex.radd, Dbl.pow3, Dbl.fin_div_def]
  refine ⟨rfl, ?_, ?_, ?_, ?_⟩
  · rw [hp]
    norm_num [rest_prob]
  · rw [hp]
    norm_num [rest_prob]
  · rw [hp, hr]
  · cases h : ncv_nca rest_lib rest_prob with
    | none => rfl
    | some s =>
      obtain ⟨x, hacc, -, -⟩ := ncv_nca_some rest_lib rest_prob s h
      rw [hp] at hacc
      exact absurd hacc (not_accepted_at_rest rest_lib _ x rfl rfl (by norm_num)
        (by norm_num) (by norm_num [rest_lib]) (by norm_num [rest_lib]))

/-- C5, amended (concrete scenario): for `V = A = D = J = 1`, `v0 = vf = 0` and
`L > 0` beyond the default absolute tolerance, the default relative tolerance
being below `1`, `ncv_nca` returns no plan.  Every real root `x` of its cubic
`x^3 = 8 L / 0.99` is positive and is rejected, its implied peak velocity
`0.99 x^2 / 4` exceeding `vf = 0`, although the plan `T1 = T3 = x/2`, `T2 = 0`
built from it would have `distance()` exactly `L`. -/
theorem C5_rest_to_rest_no_plan (lib : Lib K) (L : K) (hL : 0 < L) (hA : lib.ABSTOL < L)
    (hR : lib.RELTOL < 1) :
    ncv_nca lib ⟨1, 1, 1, 1, L, 0, 0⟩ = none ∧
    ∀ x : K, x ^ 3 = 8 * L / (99 / 100) →
      0 < x ∧
      (perturb (⟨1, 1, 1, 1, L, 0, 0⟩ : problem_t K)).vf <
        (perturb (⟨1, 1, 1, 1, L, 0, 0⟩ : problem_t K)).v0 +
          1 / 4 * (perturb (⟨1, 1, 1, 1, L, 0, 0⟩ : problem_t K)).J * (x * x) ∧
      passes lib (perturb ⟨1, 1, 1, 1, L, 0, 0⟩) (Dbl.fin x) = false ∧
      (plan_of (perturb ⟨1, 1, 1, 1, L, 0, 0⟩) (Dbl.fin x)).periods =
        ⟨Dbl.fin (x / 2), Dbl.fin 0, Dbl.fin (x / 2), Dbl.fin 0, Dbl.fin 0, Dbl.fin 0,
          Dbl.fin 0⟩ ∧
      (plan_of (perturb ⟨1, 1, 1, 1, L, 0, 0⟩) (Dbl.fin x)).distance = Dbl.fin L := by
  have hJ : 0 < (perturb (⟨1, 1, 1, 1, L, 0, 0⟩ : problem_t K)).J := by
    norm_num [perturb]
  have hna : ∀ x : K, ¬ accepted lib (perturb ⟨1, 1, 1, 1, L, 0, 0⟩) x := fun x =>
    not_accepted_at_rest lib _ x rfl rfl hJ hL hA hR
  refine ⟨?_, fun x hx => ?_⟩
  · cases h : ncv_nca lib ⟨1, 1, 1, 1, L, 0, 0⟩ with
    | none => rfl
    | some s =>
      obtain ⟨x, hacc, -, -⟩ := ncv_nca_some lib _ s h
      exact absurd hacc (hna x)
  · have hpos : 0 < x := by
      by_contra hneg
      have hx0 : x ≤ 0 := not_lt.1 hneg
      have h3 : x ^ 3 ≤ 0 := by
        have : x ^ 3 = x * (x * x) := by ring
        rw [this]
        exact mul_nonpos_of_nonpos_of_nonneg hx0 (mul_self_nonneg x)
      have : 0 < 8 * L / (99 / 100) := by positivity
      linarith
    refine ⟨hpos, ?_, ?_, ?_, ?_⟩
    · have : 0 < 1 / 4 * (perturb (⟨1, 1, 1, 1, L, 0, 0⟩ : problem_t K)).J * (x * x) := by
        positivity
      simpa [perturb] using this
    · cases hp : passes lib (perturb ⟨1, 1, 1, 1, L, 0, 0⟩) (Dbl.fin x) with
      | false => rfl
      | true => exact absurd ((passes_fin_iff _ _ _).1 hp) (hna x)
    · simp only [plan_of, Dbl.fin_mul_fin]
      congr 1 <;> congr 1 <;> ring
    · rw [distance_plan_of]
      congr 1
      have : (perturb (⟨1, 1, 1, 1, L, 0, 0⟩ : problem_t K)).J * (1 / 2 * x) ^ 3 =
          99 / 100 * x ^ 3 / 8 := by
        simp only [perturb]
        ring
      simp only [this, hx]
      simp only [perturb]
      field_simp
      ring

/-- Witness of the amended C5 at `L = 99/800` with the tolerances of `rest_lib`. -/
theorem C5_rest_to_rest_no_plan_witness :
    ((0 : ℚ) < 99 / 800 ∧ rest_lib.ABSTOL < 99 / 800 ∧ rest_lib.RELTOL < 1) ∧
    ncv_nca rest_lib ⟨1, 1, 1, 1, 99 / 800, 0, 0⟩ = none :=
  ⟨⟨by norm_num, by norm_num [rest_lib], by norm_num [rest_lib]⟩,
    (C5_rest_to_rest_no_plan rest_lib (99 / 800) (by norm_num) (by norm_num [rest_lib])
      (by norm_num [rest_lib])).1⟩

/-- C6 (perturbed constraints are what the plan carries): on every constraint
set `p` on which `ncv_nca` returns a plan `s`, `s.prob.J = 0.99 * p.J` and the
other six fields of `s.prob` are those of `p`; the result is computed from the
perturbed constraints `s.prob` alone (the cubic, the four filters and the plan
are those of `s.prob`, and two inputs with the same perturbed constraints give
the same result); and for `p.J > 0` the plan's jerk is at most `p.J`. -/
theorem C6_perturbed_constraints (lib : Lib K) (p : problem_t K) (s : solution_t K)
    (h : ncv_nca lib p = some s) :
    s.prob.J = 99 / 100 * p.J ∧
    (s.prob.V = p.V ∧ s.prob.A = p.A ∧ s.prob.D = p.D ∧ s.prob.L = p.L ∧
      s.prob.v0 = p.v0 ∧ s.prob.vf = p.vf) ∧
    s.prob = perturb p ∧
    ncv_nca lib p =
      (first_surviving lib s.prob (ncv_nca_x_roots lib s.prob)).map (plan_of s.prob) ∧
    (∃ x : K, accepted lib s.prob x ∧ s = plan_of s.prob (Dbl.fin x)) ∧
    (∀ q : problem_t K, perturb q = perturb p → ncv_nca lib q = ncv_nca lib p) ∧
    (0 < p.J → s.prob.J ≤ p.J) := by
  obtain ⟨x, hacc, rfl, -⟩ := ncv_nca_some lib p s h
  have hJ : (perturb p).J = 99 / 100 * p.J := by
    simp only [perturb]
    ring
  refine ⟨hJ, ⟨rfl, rfl, rfl, rfl, rfl, rfl⟩, rfl, ncv_nca_eq_first lib p, ⟨x, hacc, rfl⟩, ?_, ?_⟩
  · intro q hq
    rw [ncv_nca_eq_first, ncv_nca_eq_first, hq]
  · intro hpos
    show (perturb p).J ≤ p.J
    rw [hJ]
    linarith

/-- Witness of C6 on the solved example: the plan's jerk is `99/100` of the
caller's `100/99`. -/
theorem C6_perturbed_constraints_witness :
    ncv_nca ex_lib ex_prob = some ex_sol ∧ ex_sol.prob.J = 99 / 100 * ex_prob.J :=
  ⟨ex_solved, (C6_perturbed_constraints ex_lib ex_prob ex_sol ex_solved).1⟩

/-- C7 (first surviving candidate in root order): `ncv_nca` returns the plan of
the first of the real parts of the three roots, in the order `ncv_nca_x_roots`
returns them, that passes the four filters; the plan is tagged `NCV_NCA`; it
returns no result if and only if none of the three passes; and two roots with
the same real part give the same outcome of the loop body. -/
theorem C7_first_surviving_candidate (lib : Lib K) (p : problem_t K) :
    ncv_nca lib p =
      (([(ncv_nca_x_roots lib (perturb p)).1.re, (ncv_nca_x_roots lib (perturb p)).2.1.re,
          (ncv_nca_x_roots lib (perturb p)).2.2.re].find? (passes lib (perturb p))).map
        (plan_of (perturb p))) ∧
    (∀ s, ncv_nca lib p = some s → s.type = solution_type_t.NCV_NCA) ∧
    (ncv_nca lib p = none ↔
      passes lib (perturb p) (ncv_nca_x_roots lib (perturb p)).1.re = false ∧
      passes lib (perturb p) (ncv_nca_x_roots lib (perturb p)).2.1.re = false ∧
      passes lib (perturb p) (ncv_nca_x_roots lib (perturb p)).2.2.re = false) ∧
    (∀ xc xc' : complex K, xc.re = xc'.re →
      ncv_nca_candidate lib (perturb p) xc = ncv_nca_candidate lib (perturb p) xc') := by
  refine ⟨ncv_nca_eq_first lib p, ?_, ?_, ?_⟩
  · intro s hs
    obtain ⟨x, -, rfl, -⟩ := ncv_nca_some lib p s hs
    rfl
  · rw [ncv_nca_eq_first]
    simp [first_surviving]
  · intro xc xc' hre
    rw [ncv_nca_candidate_eq, ncv_nca_candidate_eq, hre]

/-- C8 (numerical degeneracy is absorbed): whenever `z == 0` holds for a
constraint set, `ncv_nca_x_roots` returns the triple of not-a-number roots,
whatever `solve_cubic` is; `is_close` is false on a not-a-number argument and a
not-a-number candidate fails the filters; and `ncv_nca` returns no plan on an
input whose perturbed constraints are that set. -/
theorem C8_degeneracy_absorbed (lib : Lib K) (prob : problem_t K)
    (hz : complex.eqr (ncv_nca_z lib prob) (Dbl.fin 0) = true) :
    (∀ sc : Dbl K → Dbl K → Dbl K → complex K → roots_t K,
      ncv_nca_x_roots { lib with solve_cubic := sc } prob = (NAN_CD, NAN_CD, NAN_CD)) ∧
    (∀ (b : Dbl K) (r t : K), is_close Dbl.nan b r t = false) ∧
    ncv_nca_candidate lib prob NAN_CD = none ∧
    (∀ p : problem_t K, perturb p = prob → ncv_nca lib p = none) := by
  have hroots : ∀ sc : Dbl K → Dbl K → Dbl K → complex K → roots_t K,
      ncv_nca_x_roots { lib with solve_cubic := sc } prob = (NAN_CD, NAN_CD, NAN_CD) := by
    intro sc
    have hz' : complex.eqr (ncv_nca_z { lib with solve_cubic := sc } prob) (Dbl.fin 0) = true := hz
    simp only [ncv_nca_x_roots, hz', if_true]
  have hnan : passes lib prob (NAN_CD : complex K).re = false := passes_nan lib prob
  refine ⟨hroots, fun _ _ _ => rfl, ?_, ?_⟩
  · rw [ncv_nca_candidate_eq, hnan]
    simp
  · intro p hp
    have hr : ncv_nca_x_roots lib prob = (NAN_CD, NAN_CD, NAN_CD) := hroots lib.solve_cubic
    rw [ncv_nca_eq_first, hp, hr]
    simp [first_surviving, hnan]

/-- Witness of C8 on the degenerate problem `zero_prob`, where `z = 0`. -/
theorem C8_degeneracy_absorbed_witness :
    complex.eqr (ncv_nca_z zero_lib (perturb zero_prob)) (Dbl.fin 0) = true ∧
    ncv_nca_x_roots zero_lib (perturb zero_prob) = (NAN_CD, NAN_CD, NAN_CD) ∧
    ncv_nca zero_lib zero_prob = none :=
  ⟨zero_prob_z,
    (C8_degeneracy_absorbed zero_lib (perturb zero_prob) zero_prob_z).1 zero_lib.solve_cubic,
    (C8_degeneracy_absorbed zero_lib (perturb zero_prob) zero_prob_z).2.2.2 zero_prob rfl⟩

/-- C9 (acceleration ceiling respected): every plan returned by `ncv_nca` has
`T1 = x/2` for a candidate `x` with `J * T1 = J * x / 2 ≤ A`, `J` being the
plan's own jerk; and the loop body returns nothing for a candidate with
`J * 0.5 * x > A`. -/
theorem C9_acceleration_ceiling (lib : Lib K) (p : problem_t K) (s : solution_t K)
    (h : ncv_nca lib p = some s) :
    (∃ T1 x : K, s.periods.T1 = Dbl.fin T1 ∧ T1 = x / 2 ∧
      s.prob.J * T1 = s.prob.J * x / 2 ∧ s.prob.J * T1 ≤ s.prob.A) ∧
    (∀ xc : complex K,
      Dbl.gt (Dbl.fin s.prob.J * Dbl.fin (1 / 2) * xc.re) (Dbl.fin s.prob.A) = true →
        ncv_nca_candidate lib s.prob xc = none) := by
  obtain ⟨x, hacc, rfl, -⟩ := ncv_nca_some lib p s h
  obtain ⟨-, -, -, hA, -⟩ := hacc
  refine ⟨⟨1 / 2 * x, x, rfl, by ring, by ring, ?_⟩, ?_⟩
  · have : (perturb p).J * (1 / 2 * x) = (perturb p).J * (1 / 2) * x := by ring
    show (perturb p).J * (1 / 2 * x) ≤ (perturb p).A
    rw [this]
    exact hA
  · intro xc hgt
    rw [ncv_nca_candidate_eq]
    have : passes lib (plan_of (perturb p) (Dbl.fin x)).prob xc.re = false := by
      simp only [passes, hgt, Bool.not_true, Bool.and_false, Bool.false_and]
    simp [this]

/-- Witness of C9 on the solved example. -/
theorem C9_acceleration_ceiling_witness :
    ncv_nca ex_lib ex_prob = some ex_sol ∧
    ∃ T1 x : ℚ, ex_sol.periods.T1 = Dbl.fin T1 ∧ T1 = x / 2 ∧
      ex_sol.prob.J * T1 = ex_sol.prob.J * x / 2 ∧ ex_sol.prob.J * T1 ≤ ex_sol.prob.A :=
  ⟨ex_solved, (C9_acceleration_ceiling ex_lib ex_prob ex_sol ex_solved).1⟩

/-- C10 (plan shape): every plan returned by `ncv_nca` has `T1 = T3 = x/2` for
the accepted candidate `x`, the real part of one of the three roots,
`T2 = 0`, `T4 = T5 = T6 = T7 = 0` and kind `NCV_NCA`; hence `time() = x`,
`cv_case()` is false and, for `ABSTOL ≥ 0`, the harness test `bad time period`
does not fire. -/
theorem C10_plan_shape (lib : Lib K) (p : problem_t K) (s : solution_t K)
    (hA : 0 ≤ lib.ABSTOL) (h : ncv_nca lib p = some s) :
    ∃ x : K,
      ((ncv_nca_x_roots lib (perturb p)).1.re = Dbl.fin x ∨
       (ncv_nca_x_roots lib (perturb p)).2.1.re = Dbl.fin x ∨
       (ncv_nca_x_roots lib (perturb p)).2.2.re = Dbl.fin x) ∧
      passes lib (perturb p) (Dbl.fin x) = true ∧
      s.periods = ⟨Dbl.fin (x / 2), Dbl.fin 0, Dbl.fin (x / 2), Dbl.fin 0, Dbl.fin 0, Dbl.fin 0,
        Dbl.fin 0⟩ ∧
      s.type = solution_type_t.NCV_NCA ∧
      s.periods.time = Dbl.fin x ∧
      s.cv_case = false ∧
      harness_bad_time_period lib s = false := by
  obtain ⟨x, hacc, rfl, hroot⟩ := ncv_nca_some lib p s h
  have hper : (plan_of (perturb p) (Dbl.fin x)).periods =
      ⟨Dbl.fin (x / 2), Dbl.fin 0, Dbl.fin (x / 2), Dbl.fin 0, Dbl.fin 0, Dbl.fin 0,
        Dbl.fin 0⟩ := by
    simp only [plan_of, Dbl.fin_mul_fin]
    congr 1 <;> congr 1 <;> ring
  refine ⟨x, hroot, (passes_fin_iff _ _ _).2 hacc, hper, rfl, ?_, ?_, ?_⟩
  · rw [periods_t.time, hper]
    simp only [Dbl.fin_add_fin]
    congr 1
    ring
  · rw [solution_t.cv_case, hper]
    simp
  · rw [harness_bad_time_period, hper]
    simp [hA]

/-- Witness of C10 on the solved example: `time()` of `ex_sol` is the accepted
root `2`. -/
theorem C10_plan_shape_witness :
    (0 ≤ ex_lib.ABSTOL ∧ ncv_nca ex_lib ex_prob = some ex_sol) ∧
    ∃ x : ℚ,
      ((ncv_nca_x_roots ex_lib (perturb ex_prob)).1.re = Dbl.fin x ∨
       (ncv_nca_x_roots ex_lib (perturb ex_prob)).2.1.re = Dbl.fin x ∨
       (ncv_nca_x_roots ex_lib (perturb ex_prob)).2.2.re = Dbl.fin x) ∧
      passes ex_lib (perturb ex_prob) (Dbl.fin x) = true ∧
      ex_sol.periods = ⟨Dbl.fin (x / 2), Dbl.fin 0, Dbl.fin (x / 2), Dbl.fin 0, Dbl.fin 0,
        Dbl.fin 0, Dbl.fin 0⟩ ∧
      ex_sol.type = solution_type_t.NCV_NCA ∧
      ex_sol.periods.time = Dbl.fin x ∧
      ex_sol.cv_case = false ∧
      harness_bad_time_period ex_lib ex_sol = false :=
  ⟨⟨by norm_num [ex_lib], ex_solved⟩,
    C10_plan_shape ex_lib ex_prob ex_sol (by norm_num [ex_lib]) ex_solved⟩

/-- C11, counterexample: `top_prob` has `A, D, J > 0` and `0 ≤ v0, vf ≤ V`;
`ncv_nca` returns a plan without cruise phase whose peak velocity
`v0 + J*T1^2 = 1/8 + 1 * 1^2` equals `V = 9/8`. -/
theorem C11_counterexample :
    (0 < top_prob.A ∧ 0 < top_prob.D ∧ 0 < top_prob.J ∧ 0 ≤ top_prob.v0 ∧
      top_prob.v0 ≤ top_prob.V ∧ 0 ≤ top_prob.vf ∧ top_prob.vf ≤ top_prob.V) ∧
    ncv_nca ex_lib top_prob = some top_sol ∧
    top_sol.cv_case = false ∧
    top_sol.vp = Dbl.fin top_sol.prob.V ∧
    ¬ (∃ v : ℚ, top_sol.vp = Dbl.fin v ∧ v < top_sol.prob.V) := by
  have hvp : top_sol.vp = Dbl.fin top_sol.prob.V := by
    have : top_sol = plan_of top_sol.prob (Dbl.fin 2) := by
      norm_num [plan_of, top_sol]
    rw [this, vp_plan_of]
    norm_num [plan_of, top_sol]
  refine ⟨by norm_num [top_prob], top_solved, ?_, hvp, ?_⟩
  · simp [solution_t.cv_case, top_sol]
  · rintro ⟨v, hv, hlt⟩
    rw [hvp] at hv
    injection hv with hv
    exact absurd hlt (by rw [hv]; exact lt_irrefl _)

/-- C11, amended (peak velocity and the ceiling): on every constraint set with
`vf ≤ V` on which `ncv_nca` returns a plan, the plan has no cruise phase and its
peak velocity `v0 + J*T1^2` is at most `vf`, hence at most `V`; it is strictly
below `V` whenever `vf < V`, and it equals `V` only when the plan reaches
`vf = V` exactly. -/
theorem C11_peak_velocity_below_V (lib : Lib K) (p : problem_t K) (s : solution_t K)
    (hV : p.vf ≤ p.V) (h : ncv_nca lib p = some s) :
    ∃ T1 v : K, s.periods.T1 = Dbl.fin T1 ∧ s.periods.T4 = Dbl.fin 0 ∧ s.cv_case = false ∧
      s.vp = Dbl.fin v ∧ v = s.prob.v0 + s.prob.J * T1 ^ 2 ∧
      v ≤ s.prob.vf ∧ v ≤ s.prob.V ∧
      (s.prob.vf < s.prob.V → v < s.prob.V) ∧
      (v = s.prob.V → s.prob.vf = s.prob.V ∧ v = s.prob.vf) := by
  obtain ⟨x, hacc, rfl, -⟩ := ncv_nca_some lib p s h
  obtain ⟨-, -, hvf, -, -⟩ := hacc
  have hv : (perturb p).v0 + (perturb p).J * (1 / 2 * x) ^ 2 =
      (perturb p).v0 + 1 / 4 * (perturb p).J * (x * x) := by ring
  have hle : (perturb p).v0 + (perturb p).J * (1 / 2 * x) ^ 2 ≤ (perturb p).vf := hv ▸ hvf
  have hV' : (perturb p).vf ≤ (perturb p).V := hV
  refine ⟨1 / 2 * x, _, rfl, rfl, ?_, vp_plan_of _ _, rfl, hle, hle.trans hV', ?_, ?_⟩
  · simp [solution_t.cv_case, plan_of]
  · intro hlt
    exact lt_of_le_of_lt hle hlt
  · intro heq
    have h1 : (perturb p).V ≤ (perturb p).vf := heq ▸ hle
    have h2 : (perturb p).vf = (perturb p).V := le_antisymm hV' h1
    exact ⟨h2, heq.trans h2.symm⟩

/-- Witness of the amended C11 on the solved example, where `vf = 9/8 < V = 2`. -/
theorem C11_peak_velocity_below_V_witness :
    (ex_prob.vf ≤ ex_prob.V ∧ ncv_nca ex_lib ex_prob = some ex_sol) ∧
    ∃ T1 v : ℚ, ex_sol.periods.T1 = Dbl.fin T1 ∧ ex_sol.periods.T4 = Dbl.fin 0 ∧
      ex_sol.cv_case = false ∧ ex_sol.vp = Dbl.fin v ∧
      v = ex_sol.prob.v0 + ex_sol.prob.J * T1 ^ 2 ∧
      v ≤ ex_sol.prob.vf ∧ v ≤ ex_sol.prob.V ∧
      (ex_sol.prob.vf < ex_sol.prob.V → v < ex_sol.prob.V) ∧
      (v = ex_sol.prob.V → ex_sol.prob.vf = ex_sol.prob.V ∧ v = ex_sol.prob.vf) :=
  ⟨⟨by norm_num [ex_prob], ex_solved⟩,
    C11_peak_velocity_below_V ex_lib ex_prob ex_sol (by norm_num [ex_prob]) ex_solved⟩

/-- C12 (the cubic is the distance equation): for `J ≠ 0`, square roots that
square to their argument (`sqrt(3.0)^2 = 3`, `sqrt(ra+0i)^2 = ra`) and `z == 0`
false, the coefficient `d` built by `ncv_nca_x_roots` is `-8 L / J`, so
`solve_cubic` is called on `a = 1`, `b = 0`, `c = 8 v0 / J`, `d = -8 L / J`;
the cubic `x^3 + (8 v0 / J) x - 8 L / J = 0` is equivalent to
`v0 x + J x^3 / 8 = L`, which is `l(x) = L` for the solver's recomputed
distance `l = (v0 + vp)/2 * x`; hence a real root has `l = L` with zero error
and passes the distance filter (for `ABSTOL ≥ 0`). -/
theorem C12_cubic_is_distance_equation (lib : Lib K) (prob : problem_t K) (r3 a b : K)
    (hJ : prob.J ≠ 0) (h3 : lib.sqrt3 = Dbl.fin r3) (h3sq : r3 ^ 2 = 3)
    (hs : ncv_nca_sqrt_ra lib prob = ⟨Dbl.fin a, Dbl.fin b⟩)
    (hre : a ^ 2 - b ^ 2 = 27 * prob.L * prob.L + 32 * (prob.v0 * prob.v0 * prob.v0) / prob.J)
    (him : 2 * a * b = 0)
    (hz : complex.eqr (ncv_nca_z lib prob) (Dbl.fin 0) = false) :
    ncv_nca_d lib prob = ⟨Dbl.fin (-8 * prob.L / prob.J), Dbl.fin 0⟩ ∧
    ncv_nca_x_roots lib prob =
      lib.solve_cubic (Dbl.fin 1) (Dbl.fin 0) (Dbl.fin (8 * prob.v0 / prob.J))
        ⟨Dbl.fin (-8 * prob.L / prob.J), Dbl.fin 0⟩ ∧
    ∀ x : K,
      (1 * x ^ 3 + 0 * x ^ 2 + 8 * prob.v0 / prob.J * x + -8 * prob.L / prob.J = 0 ↔
        prob.v0 * x + prob.J * x ^ 3 / 8 = prob.L) ∧
      (prob.v0 + (prob.v0 + 1 / 4 * prob.J * (x * x))) / 2 * x =
        prob.v0 * x + prob.J * x ^ 3 / 8 ∧
      (1 * x ^ 3 + 0 * x ^ 2 + 8 * prob.v0 / prob.J * x + -8 * prob.L / prob.J = 0 →
        (prob.v0 + (prob.v0 + 1 / 4 * prob.J * (x * x))) / 2 * x - prob.L = 0 ∧
        (0 ≤ lib.ABSTOL →
          is_close (Dbl.fin ((prob.v0 + (prob.v0 + 1 / 4 * prob.J * (x * x))) / 2 * x))
            (Dbl.fin prob.L) lib.RELTOL lib.ABSTOL = true)) := by
  have hd := ncv_nca_d_exact lib prob r3 a b hJ h3 h3sq hs hre him hz
  have hiff : ∀ x : K,
      (1 * x ^ 3 + 0 * x ^ 2 + 8 * prob.v0 / prob.J * x + -8 * prob.L / prob.J = 0 ↔
        prob.v0 * x + prob.J * x ^ 3 / 8 = prob.L) := by
    intro x
    have e : 1 * x ^ 3 + 0 * x ^ 2 + 8 * prob.v0 / prob.J * x + -8 * prob.L / prob.J =
        8 / prob.J * (prob.v0 * x + prob.J * x ^ 3 / 8 - prob.L) := by
      field_simp
      ring
    rw [e, mul_eq_zero, sub_eq_zero]
    constructor
    · rintro (h | h)
      · exact absurd h (div_ne_zero (by norm_num) hJ)
      · exact h
    · intro h
      exact Or.inr h
  have hl : ∀ x : K, (prob.v0 + (prob.v0 + 1 / 4 * prob.J * (x * x))) / 2 * x =
      prob.v0 * x + prob.J * x ^ 3 / 8 := by
    intro x
    ring
  refine ⟨hd, ?_, fun x => ⟨hiff x, hl x, fun hx => ?_⟩⟩
  · rw [ncv_nca_x_roots_of_ne lib prob hz, hd, Dbl.fin_mul_fin, Dbl.fin_div_fin _ _ hJ]
  · have hL : (prob.v0 + (prob.v0 + 1 / 4 * prob.J * (x * x))) / 2 * x = prob.L := by
      rw [hl x]
      exact (hiff x).1 hx
    refine ⟨sub_eq_zero.2 hL, fun hA => ?_⟩
    rw [hL, is_close_fin_fin, decide_eq_true_eq, sub_self, abs_zero]
    exact le_max_of_le_left hA

/-- Witness of C12 over the reals: `J = 1`, `L = 5/4`, `v0 = 1/8`, with
`sqrt(3.0)` the real square root of `3` and `sqrt(ra+0i) = 13/2`, the square
root of `ra = 169/4`; the coefficient `d` is `-10`. -/
theorem C12_cubic_is_distance_equation_witness :
    Real.sqrt 3 ^ 2 = 3 ∧
    ncv_nca_d (⟨Dbl.fin (Real.sqrt 3), fun _ => ⟨Dbl.fin (13 / 2), Dbl.fin 0⟩,
        fun _ _ _ _ => (⟨Dbl.fin 2, Dbl.fin 0⟩, ⟨Dbl.fin (-1), Dbl.fin 2⟩,
          ⟨Dbl.fin (-1), Dbl.fin (-2)⟩),
        fun _ => true, 1 / 1000000, 1 / 1000000, 1 / 1000, 1 / 1000⟩ : Lib ℝ)
      ⟨2, 1, 1, 1, 5 / 4, 1 / 8, 9 / 8⟩ =
      ⟨Dbl.fin (-8 * (5 / 4) / 1), Dbl.fin 0⟩ := by
  have h3sq : Real.sqrt 3 ^ 2 = 3 := Real.sq_sqrt (by norm_num)
  refine ⟨h3sq, (C12_cubic_is_distance_equation _ ⟨2, 1, 1, 1, 5 / 4, 1 / 8, 9 / 8⟩
    (Real.sqrt 3) (13 / 2) 0 (by norm_num) (by rfl) h3sq (by rfl) (by norm_num) (by norm_num)
    ?_).1⟩
  rw [ncv_nca_z_eq _ _ (Real.sqrt 3) (13 / 2) 0 (by norm_num) (by rfl) (by rfl)]
  have hpos : (0 : ℝ) < 1 * 1 * 1 * (Real.sqrt 3 * (13 / 2) / 1 + 9 * (5 / 4) / 1) := by
    positivity
  simp only [complex.eqr, Dbl.eq_fin_fin, decide_eq_false hpos.ne', Bool.false_and]

/-- C13 (completeness on the acceleration-first domain), over the reals: for an
acceleration-first problem with `J > 0`, `v0 ≥ 0` and `L > 0`, writing `J'` for
the perturbed jerk `0.99 J`, the cubic `x^3 + (8 v0 / J') x - 8 L / J' = 0` has
exactly one real root `x*`, and `x* > 0`; with principal exact square roots, a
`solve_cubic` that returns the real roots of that cubic among its three roots
and `is_close(a, a)` true, if `v0 + J' x*^2 / 4 ≤ vf` and `J' x* / 2 ≤ A` then
`ncv_nca` returns a plan. -/
theorem C13_completeness (lib : Lib ℝ) (p : problem_t ℝ) (r3 : ℝ)
    (hafp : lib.afp (perturb p) = true) (hJ : 0 < p.J) (hv0 : 0 ≤ p.v0) (hL : 0 < p.L)
    (h3 : lib.sqrt3 = Dbl.fin r3) (h3nn : 0 ≤ r3) (h3sq : r3 ^ 2 = 3)
    (hs : 0 ≤ 27 * (perturb p).L * (perturb p).L +
        32 * ((perturb p).v0 * (perturb p).v0 * (perturb p).v0) / (perturb p).J →
      ∃ a : ℝ, 0 ≤ a ∧
        a ^ 2 = 27 * (perturb p).L * (perturb p).L +
          32 * ((perturb p).v0 * (perturb p).v0 * (perturb p).v0) / (perturb p).J ∧
        ncv_nca_sqrt_ra lib (perturb p) = ⟨Dbl.fin a, Dbl.fin 0⟩)
    (hsc : ∀ x : ℝ, x ^ 3 + 8 * p.v0 / (perturb p).J * x - 8 * p.L / (perturb p).J = 0 →
      (lib.solve_cubic (Dbl.fin 1) (Dbl.fin 0) (Dbl.fin (8 * p.v0 / (perturb p).J))
          ⟨Dbl.fin (-8 * p.L / (perturb p).J), Dbl.fin 0⟩).1.re = Dbl.fin x ∨
      (lib.solve_cubic (Dbl.fin 1) (Dbl.fin 0) (Dbl.fin (8 * p.v0 / (perturb p).J))
          ⟨Dbl.fin (-8 * p.L / (perturb p).J), Dbl.fin 0⟩).2.1.re = Dbl.fin x ∨
      (lib.solve_cubic (Dbl.fin 1) (Dbl.fin 0) (Dbl.fin (8 * p.v0 / (perturb p).J))
          ⟨Dbl.fin (-8 * p.L / (perturb p).J), Dbl.fin 0⟩).2.2.re = Dbl.fin x)
    (hcl : ∀ a : ℝ, is_close (Dbl.fin a) (Dbl.fin a) lib.RELTOL lib.ABSTOL = true) :
    (perturb p).J = 99 / 100 * p.J ∧
    ∃ xs : ℝ, xs ^ 3 + 8 * p.v0 / (perturb p).J * xs - 8 * p.L / (perturb p).J = 0 ∧
      0 < xs ∧
      (∀ y : ℝ, y ^ 3 + 8 * p.v0 / (perturb p).J * y - 8 * p.L / (perturb p).J = 0 → y = xs) ∧
      (p.v0 + (perturb p).J * xs ^ 2 / 4 ≤ p.vf → (perturb p).J * xs / 2 ≤ p.A →
        ∃ s, ncv_nca lib p = some s) := by
  have hJ' : (perturb p).J = 99 / 100 * p.J := by
    simp only [perturb]
    ring
  have hJpos : 0 < (perturb p).J := by
    rw [hJ']
    positivity
  have hJne : (perturb p).J ≠ 0 := hJpos.ne'
  have hc : 0 ≤ 8 * p.v0 / (perturb p).J := by positivity
  have he : 0 < 8 * p.L / (perturb p).J := by positivity
  obtain ⟨xs, hxs0, hxs⟩ := cubic_root_exists _ _ hc he
  refine ⟨hJ', xs, hxs, hxs0, fun y hy => cubic_root_unique _ _ xs y hc hxs0 hxs hy, ?_⟩
  intro hvf hA
  -- the square root is real and the denominator is not zero
  have hra : 0 ≤ 27 * (perturb p).L * (perturb p).L +
      32 * ((perturb p).v0 * (perturb p).v0 * (perturb p).v0) / (perturb p).J := by
    have h1 : 0 ≤ (perturb p).L * (perturb p).L := mul_self_nonneg _
    have hv : 0 ≤ (perturb p).v0 := hv0
    have h2 : 0 ≤ (perturb p).v0 * (perturb p).v0 * (perturb p).v0 :=
      mul_nonneg (mul_nonneg hv hv) hv
    have h3' : 0 ≤ 32 * ((perturb p).v0 * (perturb p).v0 * (perturb p).v0) / (perturb p).J :=
      div_nonneg (mul_nonneg (by norm_num) h2) hJpos.le
    linarith
  obtain ⟨a, hann, hasq, hsa⟩ := hs hra
  have hz : complex.eqr (ncv_nca_z lib (perturb p)) (Dbl.fin 0) = false := by
    cases hcz : complex.eqr (ncv_nca_z lib (perturb p)) (Dbl.fin 0) with
    | false => rfl
    | true =>
      have := ((ncv_nca_z_zero_iff lib (perturb p) r3 a hJpos h3 h3nn h3sq hsa hann hasq).1 hcz).2
      exact absurd hL (not_lt.2 this)
  have hd := ncv_nca_d_exact lib (perturb p) r3 a 0 hJne h3 h3sq hsa
    (by rw [← hasq]; ring) (by ring) hz
  have hroots : ncv_nca_x_roots lib (perturb p) =
      lib.solve_cubic (Dbl.fin 1) (Dbl.fin 0) (Dbl.fin (8 * p.v0 / (perturb p).J))
        ⟨Dbl.fin (-8 * p.L / (perturb p).J), Dbl.fin 0⟩ := by
    rw [ncv_nca_x_roots_of_ne lib (perturb p) hz, hd, Dbl.fin_mul_fin, Dbl.fin_div_fin _ _ hJne]
    rfl
  -- the real root passes the four filters
  have hcub : (perturb p).J * xs ^ 3 + 8 * p.v0 * xs = 8 * p.L := by
    field_simp at hxs
    linarith
  have hl : ((perturb p).v0 + ((perturb p).v0 + 1 / 4 * (perturb p).J * (xs * xs))) / 2 * xs =
      (perturb p).L := by
    show (p.v0 + (p.v0 + 1 / 4 * (perturb p).J * (xs * xs))) / 2 * xs = p.L
    linear_combination (1 / 8 : ℝ) * hcub
  have hpass : passes lib (perturb p) (Dbl.fin xs) = true := by
    rw [passes_fin_iff]
    refine ⟨fun _ => ?_, fun hf => ?_, ?_, ?_, ?_⟩
    · have : 0 ≤ 1 / 4 * (perturb p).J * (xs * xs) := by positivity
      have hv : 0 ≤ (perturb p).v0 := hv0
      linarith
    · rw [hafp] at hf
      exact absurd hf (by decide)
    · show p.v0 + 1 / 4 * (perturb p).J * (xs * xs) ≤ p.vf
      linarith
    · show (perturb p).J * (1 / 2) * xs ≤ p.A
      linarith
    · rw [hl]
      have := hcl (perturb p).L
      rw [is_close_fin_fin, decide_eq_true_eq] at this
      exact this
  have hmem : Dbl.fin xs ∈ [(ncv_nca_x_roots lib (perturb p)).1.re,
      (ncv_nca_x_roots lib (perturb p)).2.1.re, (ncv_nca_x_roots lib (perturb p)).2.2.re] := by
    rw [hroots]
    rcases hsc xs hxs with h | h | h
    · rw [← h]
      exact List.mem_cons_self _ _
    · rw [← h]
      exact List.mem_cons_of_mem _ (List.mem_cons_self _ _)
    · rw [← h]
      exact List.mem_cons_of_mem _ (List.mem_cons_of_mem _ (List.mem_cons_self _ _))
  cases hres : ncv_nca lib p with
  | some s => exact ⟨s, rfl⟩
  | none =>
    exfalso
    rw [ncv_nca_eq_first, Option.map_eq_none', first_surviving, List.find?_eq_none] at hres
    exact absurd hpass (hres _ hmem)

/-- Witness of C13 over the reals: `J = 100/99` (perturbed jerk `1`),
`L = 5/4`, `v0 = 1/8`, `vf = 9/8`, `A = 1`; the cubic `x^3 + x - 10` has the
single real root `2`, `solve_cubic` returns `2` and `-1 ± 2i`, and `ncv_nca`
returns a plan. -/
theorem C13_completeness_witness :
    ∃ s, ncv_nca (⟨Dbl.fin (Real.sqrt 3), fun _ => ⟨Dbl.fin (13 / 2), Dbl.fin 0⟩,
        fun _ _ _ _ => (⟨Dbl.fin 2, Dbl.fin 0⟩, ⟨Dbl.fin (-1), Dbl.fin 2⟩,
          ⟨Dbl.fin (-1), Dbl.fin (-2)⟩),
        fun _ => true, 1 / 1000000, 1 / 1000000, 1 / 1000, 1 / 1000⟩ : Lib ℝ)
      ⟨2, 1, 1, 100 / 99, 5 / 4, 1 / 8, 9 / 8⟩ = some s := by
  have h3sq : Real.sqrt 3 ^ 2 = 3 := Real.sq_sqrt (by norm_num)
  have hJ1 : (perturb (⟨2, 1, 1, 100 / 99, 5 / 4, 1 / 8, 9 / 8⟩ : problem_t ℝ)).J = 1 := by
    norm_num [perturb]
  have hroot : ∀ x : ℝ, x ^ 3 + 8 * (1 / 8) / 1 * x - 8 * (5 / 4) / 1 = 0 → x = 2 := by
    intro x hx
    exact cubic_root_unique 1 10 2 x (by norm_num) (by norm_num) (by norm_num)
      (by linarith)
  obtain ⟨-, xs, hxs, -, -, himp⟩ := C13_completeness
    (⟨Dbl.fin (Real.sqrt 3), fun _ => ⟨Dbl.fin (13 / 2), Dbl.fin 0⟩,
        fun _ _ _ _ => (⟨Dbl.fin 2, Dbl.fin 0⟩, ⟨Dbl.fin (-1), Dbl.fin 2⟩,
          ⟨Dbl.fin (-1), Dbl.fin (-2)⟩),
        fun _ => true, 1 / 1000000, 1 / 1000000, 1 / 1000, 1 / 1000⟩ : Lib ℝ)
    ⟨2, 1, 1, 100 / 99, 5 / 4, 1 / 8, 9 / 8⟩ (Real.sqrt 3) rfl (by norm_num) (by norm_num)
    (by norm_num) rfl (Real.sqrt_nonneg 3) h3sq
    (fun _ => ⟨13 / 2, by norm_num, by rw [hJ1]; norm_num [perturb], rfl⟩)
    (fun x hx => Or.inl (by
      rw [hJ1] at hx
      rw [hroot x hx]))
    (fun a => by
      rw [is_close_fin_fin, decide_eq_true_eq, sub_self, abs_zero]
      exact le_max_of_le_left (by norm_num))
  rw [hJ1] at hxs himp
  have hx2 : xs = 2 := hroot xs hxs
  rw [hx2] at himp
  exact himp (by norm_num) (by norm_num)

/-- C14 (a negative root is never accepted on a deceleration-first problem):
for a deceleration-first problem with `J > 0`, `v0 ≤ 0` and `L < 0`, every
negative root `x` of the cubic `x^3 + (8 v0 / J') x - 8 L / J' = 0` of the
perturbed jerk `J'` has `vp = v0 + J' x^2 / 4 > 0`: the peak-velocity sign
filter rejects it, and the loop body builds no plan from a root with that real
part, although the recomputed distance `l` equals `L` exactly and, for
`A ≥ 0`, the acceleration filter lets it through. -/
theorem C14_negative_root_rejected (lib : Lib K) (p : problem_t K) (x : K)
    (hafp : lib.afp (perturb p) = false) (hJ : 0 < p.J) (hv0 : p.v0 ≤ 0) (hL : p.L < 0)
    (hx : x < 0)
    (hroot : x ^ 3 + 8 * p.v0 / (perturb p).J * x - 8 * p.L / (perturb p).J = 0) :
    (perturb p).J = 99 / 100 * p.J ∧
    0 < (perturb p).v0 + 1 / 4 * (perturb p).J * (x * x) ∧
    (Dbl.lt (-(Dbl.fin (perturb p).v0 + Dbl.fin (1 / 4) * Dbl.fin (perturb p).J *
        (Dbl.fin x * Dbl.fin x))) (Dbl.fin 0) && !lib.afp (perturb p)) = true ∧
    passes lib (perturb p) (Dbl.fin x) = false ∧
    (∀ im : Dbl K, ncv_nca_candidate lib (perturb p) ⟨Dbl.fin x, im⟩ = none) ∧
    (∀ s, ncv_nca lib p = some s → s.periods.T1 ≠ Dbl.fin (x / 2)) ∧
    ((perturb p).v0 + ((perturb p).v0 + 1 / 4 * (perturb p).J * (x * x))) / 2 * x = p.L ∧
    (0 ≤ p.A → Dbl.gt (Dbl.fin (perturb p).J * Dbl.fin (1 / 2) * Dbl.fin x)
      (Dbl.fin (perturb p).A) = false) := by
  have hJ' : (perturb p).J = 99 / 100 * p.J := by
    simp only [perturb]
    ring
  have hJpos : 0 < (perturb p).J := by
    rw [hJ']
    positivity
  have hv0' : (perturb p).v0 = p.v0 := rfl
  have hcub : (perturb p).J * x ^ 3 + 8 * p.v0 * x = 8 * p.L := by
    have hne : (perturb p).J ≠ 0 := hJpos.ne'
    field_simp at hroot
    linarith
  have hsum : 0 < (perturb p).J * x ^ 2 + 8 * p.v0 := by
    by_contra hcon
    have hle : (perturb p).J * x ^ 2 + 8 * p.v0 ≤ 0 := not_lt.1 hcon
    have : 0 ≤ x * ((perturb p).J * x ^ 2 + 8 * p.v0) :=
      mul_nonneg_of_nonpos_of_nonpos hx.le hle
    nlinarith
  have hx2 : 0 < x * x := mul_pos_of_neg_of_neg hx hx
  have hvp : 0 < (perturb p).v0 + 1 / 4 * (perturb p).J * (x * x) := by
    rw [hv0']
    nlinarith [mul_pos hJpos hx2]
  have hpass : passes lib (perturb p) (Dbl.fin x) = false := by
    cases hp : passes lib (perturb p) (Dbl.fin x) with
    | false => rfl
    | true => exact absurd (((passes_fin_iff _ _ _).1 hp).2.1 hafp) (not_le.2 hvp)
  refine ⟨hJ', hvp, ?_, hpass, ?_, ?_, ?_, ?_⟩
  · simp only [Dbl.fin_mul_fin, Dbl.fin_add_fin, Dbl.neg_fin, Dbl.lt_fin_fin, hafp,
      Bool.not_false, Bool.and_true, decide_eq_true_eq, neg_lt_zero]
    exact hvp
  · intro im
    rw [ncv_nca_candidate_eq]
    simp [hpass]
  · intro s hs hT
    obtain ⟨y, hacc, rfl, -⟩ := ncv_nca_some lib p s hs
    have hy : y = x := by
      simp only [plan_of, Dbl.fin_mul_fin, Dbl.fin.injEq] at hT
      linarith
    rw [hy] at hacc
    exact absurd (hacc.2.1 hafp) (not_le.2 hvp)
  · rw [hv0']
    linear_combination (1 / 8 : K) * hcub
  · intro hA
    have hA' : (perturb p).A = p.A := rfl
    rw [hA', Dbl.fin_mul_fin, Dbl.fin_mul_fin, Dbl.gt_fin_fin, decide_eq_false_iff_not, not_lt]
    have : (perturb p).J * (1 / 2) * x ≤ 0 :=
      mul_nonpos_of_nonneg_of_nonpos (by positivity) hx.le
    linarith

/-- Witness of C14 on `dfp_prob` with its negative root `-2`. -/
theorem C14_negative_root_rejected_witness :
    (ex_lib.afp (perturb dfp_prob) = false ∧ 0 < dfp_prob.J ∧ dfp_prob.v0 ≤ 0 ∧
      dfp_prob.L < 0 ∧ (-2 : ℚ) < 0 ∧
      (-2 : ℚ) ^ 3 + 8 * dfp_prob.v0 / (perturb dfp_prob).J * (-2)
        - 8 * dfp_prob.L / (perturb dfp_prob).J = 0) ∧
    passes ex_lib (perturb dfp_prob) (Dbl.fin (-2)) = false :=
  ⟨⟨by norm_num [ex_lib, dfp_prob, perturb], by norm_num [dfp_prob], by norm_num [dfp_prob],
      by norm_num [dfp_prob], by norm_num, by norm_num [dfp_prob, perturb]⟩,
    (C14_negative_root_rejected ex_lib dfp_prob (-2) (by norm_num [ex_lib, dfp_prob, perturb])
      (by norm_num [dfp_prob]) (by norm_num [dfp_prob]) (by norm_num [dfp_prob]) (by norm_num)
      (by norm_num [dfp_prob, perturb])).2.2.2.1⟩

/-- C15 (exactly when the sentinel fires): for `J > 0` and `v0 ≥ 0`, with a
principal exact square root (`sqrt(3.0) ≥ 0` squares to `3`, and the square
root of the non-negative real `ra` is a non-negative real that squares to
`ra`), the test `z == 0` is true, and `ncv_nca_x_roots` returns the
not-a-number triple by its early return, if and only if `v0 = 0` and `L ≤ 0`;
on every other such input `z == 0` is false and it returns the result of
`solve_cubic`. -/
theorem C15_sentinel_iff (lib : Lib K) (prob : problem_t K) (r3 : K)
    (hJ : 0 < prob.J) (hv0 : 0 ≤ prob.v0)
    (h3 : lib.sqrt3 = Dbl.fin r3) (h3nn : 0 ≤ r3) (h3sq : r3 ^ 2 = 3)
    (hs : 0 ≤ 27 * prob.L * prob.L + 32 * (prob.v0 * prob.v0 * prob.v0) / prob.J →
      ∃ a : K, 0 ≤ a ∧
        a ^ 2 = 27 * prob.L * prob.L + 32 * (prob.v0 * prob.v0 * prob.v0) / prob.J ∧
        ncv_nca_sqrt_ra lib prob = ⟨Dbl.fin a, Dbl.fin 0⟩) :
    (complex.eqr (ncv_nca_z lib prob) (Dbl.fin 0) = true ↔ prob.v0 = 0 ∧ prob.L ≤ 0) ∧
    (prob.v0 = 0 ∧ prob.L ≤ 0 → ncv_nca_x_roots lib prob = (NAN_CD, NAN_CD, NAN_CD)) ∧
    (¬ (prob.v0 = 0 ∧ prob.L ≤ 0) →
      complex.eqr (ncv_nca_z lib prob) (Dbl.fin 0) = false ∧
      ncv_nca_x_roots lib prob =
        lib.solve_cubic (Dbl.fin 1) (Dbl.fin 0) (Dbl.fin 8 * Dbl.fin prob.v0 / Dbl.fin prob.J)
          (ncv_nca_d lib prob)) := by
  have hra : 0 ≤ 27 * prob.L * prob.L + 32 * (prob.v0 * prob.v0 * prob.v0) / prob.J := by
    have h1 : 0 ≤ prob.L * prob.L := mul_self_nonneg _
    have h2 : 0 ≤ prob.v0 * prob.v0 * prob.v0 := mul_nonneg (mul_nonneg hv0 hv0) hv0
    have h3' : 0 ≤ 32 * (prob.v0 * prob.v0 * prob.v0) / prob.J :=
      div_nonneg (mul_nonneg (by norm_num) h2) hJ.le
    linarith
  obtain ⟨a, hann, hasq, hsa⟩ := hs hra
  have hiff := ncv_nca_z_zero_iff lib prob r3 a hJ h3 h3nn h3sq hsa hann hasq
  refine ⟨hiff, fun h => ?_, fun h => ?_⟩
  · have hz := hiff.2 h
    simp only [ncv_nca_x_roots, hz, if_true]
  · have hz : complex.eqr (ncv_nca_z lib prob) (Dbl.fin 0) = false := by
      cases hc : complex.eqr (ncv_nca_z lib prob) (Dbl.fin 0) with
      | false => rfl
      | true => exact absurd (hiff.1 hc) h
    exact ⟨hz, ncv_nca_x_roots_of_ne lib prob hz⟩

/-- Witness of C15 over the reals: `J = 1`, `v0 = 0`, `L = -1`, with the real
square roots of `3` and of `ra = 27`; the test `z == 0` is true. -/
theorem C15_sentinel_iff_witness :
    (0 ≤ Real.sqrt 3 ∧ Real.sqrt 3 ^ 2 = 3 ∧ 0 ≤ Real.sqrt 27 ∧ Real.sqrt 27 ^ 2 = 27) ∧
    complex.eqr (ncv_nca_z (⟨Dbl.fin (Real.sqrt 3), fun _ => ⟨Dbl.fin (Real.sqrt 27), Dbl.fin 0⟩,
        fun _ _ _ _ => (⟨Dbl.fin 0, Dbl.fin 0⟩, ⟨Dbl.fin 0, Dbl.fin 0⟩, ⟨Dbl.fin 0, Dbl.fin 0⟩),
        fun _ => true, 1 / 1000000, 1 / 1000000, 1 / 1000, 1 / 1000⟩ : Lib ℝ)
      ⟨1, 1, 1, 1, -1, 0, 0⟩) (Dbl.fin 0) = true := by
  have h3sq : Real.sqrt 3 ^ 2 = 3 := Real.sq_sqrt (by norm_num)
  have h27 : Real.sqrt 27 ^ 2 = 27 := Real.sq_sqrt (by norm_num)
  refine ⟨⟨Real.sqrt_nonneg 3, h3sq, Real.sqrt_nonneg 27, h27⟩,
    (C15_sentinel_iff _ ⟨1, 1, 1, 1, -1, 0, 0⟩ (Real.sqrt 3) (by norm_num) (by norm_num)
      (by rfl) (Real.sqrt_nonneg 3) h3sq
      (fun _ => ⟨Real.sqrt 27, Real.sqrt_nonneg 27, by rw [h27]; norm_num, by rfl⟩)).1.2
      ⟨rfl, by norm_num⟩⟩

end claims

end scurvy
